import Mathlib

/-!
# passmint: validator registry of the persistent key-value application

A shallow embedding of `app/persistent_kvstore.go`.

* Go byte slices and strings are lists of bytes (`Bytes`); string constants are
  spelled out as their ASCII codes.
* The LevelDB handle `app.app.state.db` is an ordered byte-key store: a list of
  entries with strictly ascending keys (the order of `bytes.Compare`), which is
  also the order in which `Iterator(nil, nil)` walks it.  An iterator walks the
  snapshot taken when it was created.
* `int` is taken to be 64 bits wide, so `int(balance)` and `int64(power)` are
  identities and arithmetic wraps modulo `2^64`.
* The protobuf codec (`types.WriteMessage`, `types.ReadMessage`), the balance
  oracle as seen by its callers, and the embedded plain key-value application
  are collaborators outside this file; they are fields of `Env`.
* The `Log` text of a response is not modelled; a response is its `Code`.
-/

namespace Passmint

/-! ## Bytes and strings -/

abbrev Byte := Fin 256

abbrev Bytes := List Byte

/-- The constant `"val:"`. -/
def ValidatorSetChangePrefix : Bytes := [118, 97, 108, 58]

/-- The constant `"valacc:"`. -/
def ValidatorAccountPrefix : Bytes := [118, 97, 108, 97, 99, 99, 58]

/-- The separator `"/"`. -/
def slash : Byte := 47

/-- Go `strings.HasPrefix s p`. -/
def HasPrefix (s p : Bytes) : Bool := p.isPrefixOf s

/-- Go `strings.Split s sep` for a one-byte separator: one more field than there are
separators; the empty string gives one empty field. -/
def Split (sep : Byte) : Bytes → List Bytes
  | [] => [[]]
  | c :: cs =>
    if c = sep then [] :: Split sep cs
    else
      match Split sep cs with
      | [] => [[c]]
      | p :: ps => (c :: p) :: ps

/-- Go `encoding/hex.fromHexChar`. -/
def fromHexChar (c : Byte) : Option Nat :=
  if 48 ≤ c.val ∧ c.val ≤ 57 then some (c.val - 48)
  else if 97 ≤ c.val ∧ c.val ≤ 102 then some (c.val - 97 + 10)
  else if 65 ≤ c.val ∧ c.val ≤ 70 then some (c.val - 65 + 10)
  else none

/-- Go `hex.DecodeString`: `none` stands for a non-nil error (a byte that is not a hex
digit, or an odd length). -/
def DecodeString : Bytes → Option Bytes
  | [] => some []
  | [_] => none
  | a :: b :: rest =>
    match fromHexChar a, fromHexChar b with
    | some x, some y =>
      match DecodeString rest with
      | some t => some (Fin.ofNat (x * 16 + y) :: t)
      | none => none
    | _, _ => none

/-- One upper-case hex digit, as `%X` prints it. -/
def hexUpper (n : Nat) : Byte :=
  if n < 10 then Fin.ofNat (48 + n) else Fin.ofNat (55 + n)

/-- The verb `%X` applied to a byte slice: two upper-case hex digits per byte. -/
def fmtX (bs : Bytes) : Bytes :=
  bs.flatMap (fun b => [hexUpper (b.val / 16), hexUpper (b.val % 16)])

/-- Decimal digits of `n`, most significant first; `fuel` bounds the number of digits. -/
def decDigits : Nat → Nat → Bytes
  | 0, _ => []
  | fuel + 1, n =>
    if n < 10 then [Fin.ofNat (48 + n)]
    else decDigits fuel (n / 10) ++ [Fin.ofNat (48 + n % 10)]

/-- Decimal rendering of a natural number. -/
def fmtNat (n : Nat) : Bytes := decDigits (n + 1) n

/-- The verb `%d` applied to an `int64`. -/
def fmtD (p : Int) : Bytes :=
  if p < 0 then 45 :: fmtNat p.natAbs else fmtNat p.natAbs

/-- The digit loop of `strconv.ParseUint` in base 10, without the range check. -/
def parseDigits : Bytes → Nat → Option Nat
  | [], acc => some acc
  | c :: cs, acc =>
    if 48 ≤ c.val ∧ c.val ≤ 57 then parseDigits cs (acc * 10 + (c.val - 48)) else none

/-- Go `strconv.ParseUint s 10 64`; `none` stands for a non-nil error. -/
def ParseUint (s : Bytes) : Option Nat :=
  if s = [] then none
  else
    match parseDigits s 0 with
    | none => none
    | some n => if n < 2 ^ 64 then some n else none

/-- Go `strconv.ParseInt s 10 64`; `none` stands for a non-nil error. -/
def ParseInt (s : Bytes) : Option Int :=
  match s with
  | [] => none
  | c :: cs =>
    let neg : Bool := decide (c = 45)
    let body : Bytes := if c = 43 ∨ c = 45 then cs else s
    match ParseUint body with
    | none => none
    | some un =>
      if neg = false ∧ 2 ^ 63 ≤ un then none
      else if neg = true ∧ 2 ^ 63 < un then none
      else some (if neg then -(un : Int) else (un : Int))

/-! ## Machine integers -/

/-- Two's-complement wrap-around of a mathematical integer into `int64`. -/
def wrapInt64 (x : Int) : Int := (x + 2 ^ 63) % 2 ^ 64 - 2 ^ 63

/-- Membership in the `int64` range. -/
def isInt64 (x : Int) : Prop := -(2 ^ 63) ≤ x ∧ x < 2 ^ 63

instance (x : Int) : Decidable (isInt64 x) := by
  unfold isInt64
  infer_instance

/-- The method `calculatePower`: `10 + stake/100` in Go integer arithmetic, where `/`
truncates toward zero. -/
def calculatePower (stake : Int) : Int := wrapInt64 (10 + Int.tdiv stake 100)

/-! ## The ordered store -/

/-- The ordered byte-key store behind `app.app.state.db`. -/
structure DB where
  entries : List (Bytes × Bytes)
  sorted : entries.Pairwise (fun a b => a.1 < b.1)

/-- Ordered insertion, replacing the value of a key that is present. -/
def insertEntry (k v : Bytes) : List (Bytes × Bytes) → List (Bytes × Bytes)
  | [] => [(k, v)]
  | e :: es =>
    if k < e.1 then (k, v) :: e :: es
    else if k = e.1 then (k, v) :: es
    else e :: insertEntry k v es

/-- Removal of the entry of a key. -/
def eraseEntry (k : Bytes) (l : List (Bytes × Bytes)) : List (Bytes × Bytes) :=
  l.filter (fun e => decide (e.1 ≠ k))

/-- First value stored under a key. -/
def lookupEntry (k : Bytes) : List (Bytes × Bytes) → Option Bytes
  | [] => none
  | e :: es => if e.1 = k then some e.2 else lookupEntry k es

namespace DB

/-- The empty store. -/
def empty : DB := ⟨[], List.Pairwise.nil⟩

/-- The store operation `Get`. -/
def Get (db : DB) (k : Bytes) : Option Bytes := lookupEntry k db.entries

/-- The store operation `Has`. -/
def Has (db : DB) (k : Bytes) : Bool := (lookupEntry k db.entries).isSome

/-- The store operation `Set`. -/
def Set (db : DB) (k v : Bytes) : DB :=
  ⟨insertEntry k v db.entries, by
    have mem : ∀ (l : List (Bytes × Bytes)) (x : Bytes × Bytes),
        x ∈ insertEntry k v l → x = (k, v) ∨ x ∈ l := by
      intro l
      induction l with
      | nil => intro x hx; simpa [insertEntry] using hx
      | cons e es ih =>
        intro x hx
        unfold insertEntry at hx
        split_ifs at hx with h1 h2
        · rcases List.mem_cons.1 hx with h | h
          · exact Or.inl h
          · exact Or.inr h
        · rcases List.mem_cons.1 hx with h | h
          · exact Or.inl h
          · exact Or.inr (List.mem_cons_of_mem _ h)
        · rcases List.mem_cons.1 hx with h | h
          · exact Or.inr (h ▸ List.mem_cons_self _ _)
          · rcases ih x h with h | h
            · exact Or.inl h
            · exact Or.inr (List.mem_cons_of_mem _ h)
    have key : ∀ l : List (Bytes × Bytes), l.Pairwise (fun a b => a.1 < b.1) →
        (insertEntry k v l).Pairwise (fun a b => a.1 < b.1) := by
      intro l
      induction l with
      | nil => intro _; simp [insertEntry]
      | cons e es ih =>
        intro hs
        have hes := List.pairwise_cons.1 hs
        unfold insertEntry
        split_ifs with h1 h2
        · refine List.pairwise_cons.2 ⟨?_, hs⟩
          intro x hx
          rcases List.mem_cons.1 hx with h | h
          · rw [h]; exact h1
          · exact lt_trans h1 (hes.1 x h)
        · refine List.pairwise_cons.2 ⟨?_, hes.2⟩
          intro x hx
          show k < x.1
          rw [h2]; exact hes.1 x hx
        · refine List.pairwise_cons.2 ⟨?_, ih hes.2⟩
          intro x hx
          rcases mem es x hx with h | h
          · rw [h]
            rcases lt_trichotomy k e.1 with h3 | h3 | h3
            · exact absurd h3 h1
            · exact absurd h3 h2
            · exact h3
          · exact hes.1 x h
    exact key _ db.sorted⟩

/-- The store operation `Delete`. -/
def Delete (db : DB) (k : Bytes) : DB :=
  ⟨eraseEntry k db.entries, List.Pairwise.filter _ db.sorted⟩

end DB

/-! ## Validators, responses, collaborators -/

/-- The message `types.PubKey`; `Kind` is its field `Type`. -/
structure PubKey where
  Kind : Bytes
  Data : Bytes
deriving DecidableEq

/-- The message `types.Validator`. -/
structure Validator where
  PubKey : PubKey
  Power : Int
deriving DecidableEq

/-- The constant `"ed25519"`. -/
def TypeEd25519 : Bytes := [101, 100, 50, 53, 53, 49, 57]

/-- The constructor `types.Ed25519Validator`. -/
def Ed25519Validator (pubkey : Bytes) (power : Int) : Validator :=
  ⟨⟨TypeEd25519, pubkey⟩, power⟩

/-- The response `types.ResponseDeliverTx`, reduced to its code. -/
structure ResponseDeliverTx where
  Code : Nat
deriving DecidableEq

/-- The response `types.ResponseEndBlock`. -/
structure ResponseEndBlock where
  ValidatorUpdates : List Validator
deriving DecidableEq

def CodeTypeOK : Nat := 0

def CodeTypeEncodingError : Nat := 1

def CodeTypeBadNonce : Nat := 2

def CodeTypeUnauthorized : Nat := 3

/-- The state of a `PersistentKVStoreApplication`: the store and `ValUpdates`. -/
structure App where
  db : DB
  ValUpdates : List Validator

/-- The collaborators of the application.  `none` stands for a non-nil error. -/
structure Env where
  /-- The call `types.WriteMessage(&v, buffer)` and the bytes it leaves in the buffer. -/
  WriteMessage : Validator → Option Bytes
  /-- The call `types.ReadMessage(buffer, validator)`. -/
  ReadMessage : Bytes → Option Validator
  /-- The call `BalanceOf(account)` as its callers see it: the balance when `err == nil`. -/
  BalanceOf : Bytes → Option Int
  /-- The embedded application's `DeliverTx`, for transactions that are plain writes. -/
  kvDeliverTx : App → Bytes → App × ResponseDeliverTx

/-- The codec writes every validator whose power is an `int64`, and reads back what it
wrote. -/
def Env.CodecOk (env : Env) : Prop :=
  ∀ v : Validator, isInt64 v.Power →
    ∃ b : Bytes, env.WriteMessage v = some b ∧ env.ReadMessage b = some v

/-! ## The application -/

def isValidatorTx (tx : Bytes) : Bool := HasPrefix tx ValidatorSetChangePrefix

def isValidatorAccountTx (tx : Bytes) : Bool := HasPrefix tx ValidatorAccountPrefix

/-- The function `MakeValSetChangeTx`: `"val:%X/%d"` of the key's data and the power. -/
def MakeValSetChangeTx (pubkey : PubKey) (power : Int) : Bytes :=
  ValidatorSetChangePrefix ++ fmtX pubkey.Data ++ [slash] ++ fmtD power

def updateAccount (app : App) (pubkey acc : Bytes) : App :=
  { app with db := app.db.Set (ValidatorAccountPrefix ++ pubkey) acc }

def deleteAccount (app : App) (pubkey : Bytes) : App :=
  { app with db := app.db.Delete (ValidatorAccountPrefix ++ pubkey) }

/-- The method `updateValidator`: add, update, or remove a validator. -/
def updateValidator (env : Env) (app : App) (v : Validator) : App × ResponseDeliverTx :=
  let key := ValidatorSetChangePrefix ++ v.PubKey.Data
  if v.Power = 0 then
    if app.db.Has key = false then (app, ⟨CodeTypeUnauthorized⟩)
    else
      let app1 : App := { app with db := app.db.Delete key }
      let app2 := deleteAccount app1 v.PubKey.Data
      ({ app2 with ValUpdates := app2.ValUpdates ++ [v] }, ⟨CodeTypeOK⟩)
  else
    match env.WriteMessage v with
    | none => (app, ⟨CodeTypeEncodingError⟩)
    | some value =>
      let app1 : App := { app with db := app.db.Set key value }
      ({ app1 with ValUpdates := app1.ValUpdates ++ [v] }, ⟨CodeTypeOK⟩)

/-- The method `execValidatorTx`; the argument still carries its `"val:"`. -/
def execValidatorTx (env : Env) (app : App) (tx : Bytes) : App × ResponseDeliverTx :=
  let tx := tx.drop ValidatorSetChangePrefix.length
  match Split slash tx with
  | [pubkeyS, powerS] =>
    match DecodeString pubkeyS with
    | none => (app, ⟨CodeTypeEncodingError⟩)
    | some pubkey =>
      match ParseInt powerS with
      | none => (app, ⟨CodeTypeEncodingError⟩)
      | some power => updateValidator env app (Ed25519Validator pubkey power)
  | _ => (app, ⟨CodeTypeEncodingError⟩)

/-- The method `execValidatorAccountTx`; the argument still carries its `"valacc:"`. -/
def execValidatorAccountTx (env : Env) (app : App) (tx : Bytes) : App × ResponseDeliverTx :=
  let tx := tx.drop ValidatorAccountPrefix.length
  match Split slash tx with
  | [pubkeyS, accountS] =>
    match DecodeString pubkeyS with
    | none => (app, ⟨CodeTypeEncodingError⟩)
    | some pubkey =>
      match env.BalanceOf accountS with
      | none => (app, ⟨CodeTypeEncodingError⟩)
      | some balance =>
        let app1 := updateAccount app pubkey accountS
        let power := calculatePower balance
        updateValidator env app1 (Ed25519Validator pubkey power)
  | _ => (app, ⟨CodeTypeEncodingError⟩)

/-- The method `DeliverTx`. -/
def DeliverTx (env : Env) (app : App) (tx : Bytes) : App × ResponseDeliverTx :=
  if isValidatorTx tx then execValidatorTx env app tx
  else if isValidatorAccountTx tx then execValidatorAccountTx env app tx
  else env.kvDeliverTx app tx

/-- The method `InitChain`: every entry is applied, its result is only logged. -/
def InitChain (env : Env) (app : App) (validators : List Validator) : App :=
  validators.foldl (fun a v => (updateValidator env a v).1) app

/-- The method `BeginBlock`. -/
def BeginBlock (app : App) : App := { app with ValUpdates := [] }

/-- One turn of the loop of `EndBlock`, at the iterator entry `e`. -/
def endBlockStep (env : Env) (app : App) (e : Bytes × Bytes) : App :=
  if isValidatorAccountTx e.1 then
    let pubkey := e.1.drop ValidatorAccountPrefix.length
    let accountS := e.2
    match env.BalanceOf accountS with
    | none => app
    | some balance =>
      let power := calculatePower balance
      (updateValidator env app (Ed25519Validator pubkey power)).1
  else app

/-- The method `EndBlock`: the iterator walks the entries present when it was created. -/
def EndBlock (env : Env) (app : App) : App × ResponseEndBlock :=
  let app1 := app.db.entries.foldl (endBlockStep env) app
  (app1, ⟨app1.ValUpdates⟩)

/-- The loop of `Validators` over the entries; `none` stands for the panic on a value
that does not decode. -/
def collectValidators (env : Env) : List (Bytes × Bytes) → Option (List Validator)
  | [] => some []
  | e :: es =>
    if isValidatorTx e.1 then
      match env.ReadMessage e.2 with
      | none => none
      | some v =>
        match collectValidators env es with
        | none => none
        | some vs => some (v :: vs)
    else collectValidators env es

/-- The method `Validators`. -/
def Validators (env : Env) (app : App) : Option (List Validator) :=
  collectValidators env app.db.entries

/-- Every entry under a `"val:"` key decodes to a validator, and the key is `"val:"`
followed by that validator's public key. -/
def ValidEntries (env : Env) (l : List (Bytes × Bytes)) : Prop :=
  ∀ e ∈ l, isValidatorTx e.1 = true →
    ∃ v, env.ReadMessage e.2 = some v ∧ e.1 = ValidatorSetChangePrefix ++ v.PubKey.Data

/-- The store invariant on validator entries. -/
def ValidStore (env : Env) (db : DB) : Prop := ValidEntries env db.entries

/-! ## A concrete environment for the examples -/

/-- A byte string written as `1, b` for each byte `b`, closed by `0`. -/
def putBytes (bs : Bytes) : Bytes :=
  bs.flatMap (fun b => [1, b]) ++ [0]

/-- Reads back `putBytes`, returning the string and the remaining input. -/
def takeBytes : Bytes → Option (Bytes × Bytes)
  | [] => none
  | [c] => if c = 0 then some ([], []) else none
  | c :: b :: rest =>
    if c = 0 then some ([], b :: rest)
    else if c = 1 then
      match takeBytes rest with
      | some (x, r) => some (b :: x, r)
      | none => none
    else none

/-- An example codec: type, data, then the power in decimal. -/
def exampleWrite (v : Validator) : Option Bytes :=
  some (putBytes v.PubKey.Kind ++ (putBytes v.PubKey.Data ++ fmtD v.Power))

def exampleRead (b : Bytes) : Option Validator :=
  match takeBytes b with
  | none => none
  | some (kind, r1) =>
    match takeBytes r1 with
    | none => none
    | some (data, r2) =>
      match ParseInt r2 with
      | none => none
      | some p => some ⟨⟨kind, data⟩, p⟩

/-- An example oracle: the address `"a"` holds 0, `"b"` holds 250, others fail. -/
def exampleBalanceOf (account : Bytes) : Option Int :=
  if account = [97] then some 0 else if account = [98] then some 250 else none

/-- An example environment; its plain key-value application does nothing. -/
def exampleEnv : Env :=
  ⟨exampleWrite, exampleRead, exampleBalanceOf, fun app _ => (app, ⟨CodeTypeOK⟩)⟩

/-- An example key. -/
def exampleKey : PubKey := ⟨TypeEd25519, [1, 2]⟩

/-- An example state: the empty store after `exampleKey` was given power 5. -/
def exampleApp : App := (updateValidator exampleEnv ⟨DB.empty, []⟩ ⟨exampleKey, 5⟩).1

/-- An example state: key `[1]` is linked to the address `"a"` and has power 77, key `[2]`
is linked to the address `"b"` and has no validator entry. -/
def linkedApp : App :=
  (updateValidator exampleEnv
    ⟨(DB.empty.Set (ValidatorAccountPrefix ++ [1]) [97]).Set (ValidatorAccountPrefix ++ [2])
      [98], []⟩ (Ed25519Validator [1] 77)).1

/-! ## Runs of the application -/

/-- The environment with the balance oracle answering as `oracle`. -/
def Env.withOracle (env : Env) (oracle : Bytes → Option Int) : Env :=
  { env with BalanceOf := oracle }

/-- A call made by the consensus engine, together with the answers the balance oracle
gives while the call runs. -/
inductive Call where
  | initChain (validators : List Validator)
  | beginBlock
  | deliverTx (oracle : Bytes → Option Int) (tx : Bytes)
  | endBlock (oracle : Bytes → Option Int)

/-- The state after one call. -/
def applyCall (env : Env) (app : App) : Call → App
  | Call.initChain validators => InitChain env app validators
  | Call.beginBlock => BeginBlock app
  | Call.deliverTx oracle tx => (DeliverTx (env.withOracle oracle) app tx).1
  | Call.endBlock oracle => (EndBlock (env.withOracle oracle) app).1

/-- The state after a sequence of calls. -/
def runCalls (env : Env) (app : App) (calls : List Call) : App :=
  calls.foldl (applyCall env) app

/-- The call delivers only `"val:"` and `"valacc:"` transactions, and the validators
handed to `InitChain` carry `int64` powers. -/
def Call.Typed : Call → Prop
  | Call.initChain validators => ∀ v ∈ validators, isInt64 v.Power
  | Call.beginBlock => True
  | Call.deliverTx _ tx => isValidatorTx tx = true ∨ isValidatorAccountTx tx = true
  | Call.endBlock _ => True

/-- Every balance the oracle reports is a non-negative `int64`. -/
def NonNegOracle (oracle : Bytes → Option Int) : Prop :=
  ∀ a b, oracle a = some b → 0 ≤ b ∧ isInt64 b

/-- The call delivers only `"val:"` and `"valacc:"` transactions, and every balance the
oracle reports during the call is a non-negative `int64`. -/
def Call.NonNeg : Call → Prop
  | Call.initChain _ => True
  | Call.beginBlock => True
  | Call.deliverTx oracle tx =>
    (isValidatorTx tx = true ∨ isValidatorAccountTx tx = true) ∧ NonNegOracle oracle
  | Call.endBlock oracle => NonNegOracle oracle

/-- Every entry under a `"val:"` key decodes to a validator with that key's public key
and a power that is not 0. -/
def NonzeroEntries (env : Env) (l : List (Bytes × Bytes)) : Prop :=
  ∀ e ∈ l, isValidatorTx e.1 = true →
    ∃ v, env.ReadMessage e.2 = some v ∧ e.1 = ValidatorSetChangePrefix ++ v.PubKey.Data ∧
      v.Power ≠ 0

/-- Every public key with an account link has a validator entry. -/
def LinksHaveValidators (db : DB) : Prop :=
  ∀ pk : Bytes, db.Has (ValidatorAccountPrefix ++ pk) = true →
    db.Has (ValidatorSetChangePrefix ++ pk) = true

/-- The store holds no account link. -/
def NoLinks (db : DB) : Prop :=
  ∀ pk : Bytes, db.Has (ValidatorAccountPrefix ++ pk) = false

/-- The update that `EndBlock` is expected to report for the store entry `e` when it is
called in the state `app`: none unless `e` is an account link whose balance lookup
succeeds and whose update of the validator is accepted. -/
def expectedUpdate (env : Env) (app : App) (e : Bytes × Bytes) : Option Validator :=
  if isValidatorAccountTx e.1 then
    match env.BalanceOf e.2 with
    | none => none
    | some balance =>
      let v := Ed25519Validator (e.1.drop ValidatorAccountPrefix.length) (calculatePower balance)
      if (updateValidator env app v).2.Code = CodeTypeOK then some v else none
  else none

/-- The updates that `EndBlock` is expected to return when called in the state `app`:
`ValUpdates` as it stands, then the expected update of each store entry in key order. -/
def expectedUpdates (env : Env) (app : App) : List Validator :=
  app.ValUpdates ++ app.db.entries.filterMap (expectedUpdate env app)

/-- An example run: `exampleKey` starts with power 5, then a block sets key `[3]` to
power 7 and links `exampleKey` to the address `"b"`. -/
def exampleCalls : List Call :=
  [Call.initChain [⟨exampleKey, 5⟩], Call.beginBlock,
    Call.deliverTx exampleBalanceOf (MakeValSetChangeTx ⟨TypeEd25519, [3]⟩ 7),
    Call.deliverTx exampleBalanceOf
      (ValidatorAccountPrefix ++ ([48, 49, 48, 50] ++ [slash] ++ [98])),
    Call.endBlock exampleBalanceOf]

/-! ## The balance oracle of `stakeHandler.go` -/

/-- The constant `CONTRACT_ADDRESS`, `"0x63f584fa56e60e4d0fe8802b27c7e6e3b33e007f"`. -/
def CONTRACT_ADDRESS : Bytes :=
  [48, 120, 54, 51, 102, 53, 56, 52, 102, 97, 53, 54, 101, 54, 48, 101, 52, 100, 48, 102,
   101, 56, 56, 48, 50, 98, 50, 55, 99, 55, 101, 54, 101, 51, 98, 51, 51, 101, 48, 48, 55,
   102]

/-- The constant `FUNCTION_SIGNATURE`, `"0x70a08231000000000000000000000000"`. -/
def FUNCTION_SIGNATURE : Bytes :=
  [48, 120, 55, 48, 97, 48, 56, 50, 51, 49, 48, 48, 48, 48, 48, 48, 48, 48, 48, 48, 48, 48,
   48, 48, 48, 48, 48, 48, 48, 48, 48, 48, 48, 48]

/-- The message `"invalid account"`. -/
def invalidAccount : Bytes := [105, 110, 118, 97, 108, 105, 100, 32, 97, 99, 99, 111, 117, 110, 116]

/-- The node behind `rpc.Dial` and the arbitrary-precision parser, both outside the
repository.  An error is its message; `none` in an error position is Go `nil`. -/
structure RpcEnv where
  /-- The error of `rpc.Dial`, if any. -/
  DialErr : Option Bytes
  /-- The call `client.Call(&result, "eth_call", &BalanceRequest{to, data}, "latest")`: the
  result string, or the error. -/
  Call : Bytes → Bytes → Except Bytes Bytes
  /-- The call `wei.SetString(result, 0)`: the integer when `succ` is true. -/
  SetString : Bytes → Option Int

/-- The function `genRequestData`: the request data and the error. -/
def genRequestData (account : Bytes) : Bytes × Option Bytes :=
  if HasPrefix account [48, 120] = false then ([], some invalidAccount)
  else (FUNCTION_SIGNATURE ++ account.drop 2, none)

/-- The function `BalanceOf`: the pair `(int64, error)` it returns.  On a result string
that does not parse, it returns the variable `err`, which holds the `nil` left by the
successful `client.Call`. -/
def BalanceOf (rpc : RpcEnv) (account : Bytes) : Int × Option Bytes :=
  match rpc.DialErr with
  | some err => (0, some err)
  | none =>
    match genRequestData account with
    | (_, some err) => (0, some err)
    | (data, none) =>
      match rpc.Call CONTRACT_ADDRESS data with
      | Except.error err => (0, some err)
      | Except.ok result =>
        match rpc.SetString result with
        | none => (0, none)
        | some wei => (wrapInt64 (wei / 1000000000000000000), none)

/-- What the callers of `BalanceOf` make of its result: a balance when `err == nil`. -/
def oracleOf (rpc : RpcEnv) (account : Bytes) : Option Int :=
  match BalanceOf rpc account with
  | (balance, none) => some balance
  | (_, some _) => none

/-- An example node that answers every call with `"zz"`; the example parser reads
decimal integers only. -/
def unparsableRpc : RpcEnv :=
  ⟨none, fun _ _ => Except.ok [122, 122], ParseInt⟩

/-- The digit loop of the example parser in base 16. -/
def parseHexDigits : Bytes → Nat → Option Nat
  | [], acc => some acc
  | c :: cs, acc =>
    match fromHexChar c with
    | some d => parseHexDigits cs (acc * 16 + d)
    | none => none

/-- An example parser for `SetString(result, 0)`: an optional sign, then either `0x` and
hex digits or decimal digits, of any size. -/
def exampleSetString (s : Bytes) : Option Int :=
  let neg : Bool := decide (s.head? = some 45)
  let body : Bytes := if s.head? = some 43 ∨ s.head? = some 45 then s.drop 1 else s
  let digits : Option Nat :=
    if HasPrefix body [48, 120] = true then
      (if body.drop 2 = [] then none else parseHexDigits (body.drop 2) 0)
    else (if body = [] then none else parseDigits body 0)
  match digits with
  | none => none
  | some n => some (if neg then -(n : Int) else (n : Int))

/-- The `eth_call` result
`"0x000000000000000000000000000000000de0b6b3a763ffc9ca36523a21600000"`:
the 256-bit word of the balance `(2^64 - 1000) * 10^18`. -/
def wrappedBalanceWord : Bytes :=
  [48, 120, 48, 48, 48, 48, 48, 48, 48, 48, 48, 48, 48, 48, 48, 48, 48, 48, 48, 48, 48, 48,
   48, 48, 48, 48, 48, 48, 48, 48, 48, 48, 48, 48, 48, 100, 101, 48, 98, 54, 98, 51, 97,
   55, 54, 51, 102, 102, 99, 57, 99, 97, 51, 54, 53, 50, 51, 97, 50, 49, 54, 48, 48, 48,
   48, 48]

/-- An example node whose contract reports the balance `wrappedBalanceWord` for every
account; divided by `10^18` and cut to an `int64` it is `-1000`. -/
def wrappedRpc : RpcEnv :=
  ⟨none, fun _ _ => Except.ok wrappedBalanceWord, exampleSetString⟩

/-- An example node whose answer is the decimal string `"-1000000000000000000000"`. -/
def negativeRpc : RpcEnv :=
  ⟨none, fun _ _ => Except.ok
    [45, 49, 48, 48, 48, 48, 48, 48, 48, 48, 48, 48, 48, 48, 48, 48, 48, 48, 48, 48, 48, 48,
      48], exampleSetString⟩

/-! ## Commit -/

/-- The response `types.ResponseCommit`. -/
structure ResponseCommit where
  Data : Bytes
deriving DecidableEq

/-- The method `Commit`: it only hands over to the `Commit` of the embedded application,
whose source file is not among the sources; `kvCommit` stands for it, acting on the state
it is given, and `none` stands for a panic. -/
def Commit (kvCommit : App → Option (App × ResponseCommit)) (app : App) :
    Option (App × ResponseCommit) :=
  kvCommit app

/-! ## Arithmetic of `calculatePower` -/

theorem wrapInt64_of_isInt64 {x : Int} (h : isInt64 x) : wrapInt64 x = x := by
  unfold isInt64 at h
  unfold wrapInt64
  omega

theorem tdiv_hundred_nonneg {x : Int} (h : 0 ≤ x) : Int.tdiv x 100 = x / 100 :=
  Int.tdiv_eq_ediv h (by decide)

theorem tdiv_hundred_neg {x : Int} (h : x < 0) : Int.tdiv x 100 = -((-x) / 100) := by
  have h1 : Int.tdiv x 100 = -(Int.tdiv (-x) 100) := by
    rw [Int.neg_tdiv, neg_neg]
  rw [h1, Int.tdiv_eq_ediv (by omega) (by decide)]

theorem calculatePower_eq {x : Int} (h : isInt64 x) :
    calculatePower x = 10 + Int.tdiv x 100 := by
  unfold calculatePower
  apply wrapInt64_of_isInt64
  unfold isInt64 at h ⊢
  rcases lt_or_le x 0 with hx | hx
  · rw [tdiv_hundred_neg hx]; omega
  · rw [tdiv_hundred_nonneg hx]; omega

theorem floor_div_hundred (x : Int) : Int.floor ((x : ℚ) / 100) = x / 100 := by
  have h := Rat.floor_intCast_div_natCast x 100
  simpa using h

theorem ceil_div_hundred (x : Int) : Int.ceil ((x : ℚ) / 100) = -((-x) / 100) := by
  have h : (((-x : Int) : ℚ) / 100) = -((x : ℚ) / 100) := by
    push_cast
    ring
  rw [← floor_div_hundred, h, Int.floor_neg, neg_neg]

/-- C4, as stated, fails: at balance `-1` the code gives `10`, while
`10 + floor(-1/100)` is `9`. -/
theorem calculatePower_floor_counterexample :
    calculatePower (-1) = 10 ∧ 10 + Int.floor (((-1 : Int) : ℚ) / 100) = 9 ∧
      calculatePower (-1) ≠ 10 + Int.floor (((-1 : Int) : ℚ) / 100) := by
  have h1 : calculatePower (-1) = 10 := by decide
  have h2 : (10 : Int) + Int.floor (((-1 : Int) : ℚ) / 100) = 9 := by
    rw [floor_div_hundred]; decide
  refine ⟨h1, h2, ?_⟩
  rw [h1, h2]; decide

/-- C4, amended: for every `int64` balance, `calculatePower` is `10` plus the quotient
`balance / 100` rounded toward zero: `10 + floor(balance / 100)` when `balance ≥ 0`, and
`10 + ceil(balance / 100)` when `balance < 0`. -/
theorem calculatePower_truncates (balance : Int) (h : isInt64 balance) :
    (0 ≤ balance → calculatePower balance = 10 + Int.floor ((balance : ℚ) / 100)) ∧
      (balance < 0 → calculatePower balance = 10 + Int.ceil ((balance : ℚ) / 100)) := by
  constructor
  · intro hb
    rw [calculatePower_eq h, tdiv_hundred_nonneg hb, floor_div_hundred]
  · intro hb
    rw [calculatePower_eq h, tdiv_hundred_neg hb, ceil_div_hundred]

theorem calculatePower_truncates_witness :
    isInt64 250 ∧
      ((0 ≤ (250 : Int) → calculatePower 250 = 10 + Int.floor (((250 : Int) : ℚ) / 100)) ∧
        ((250 : Int) < 0 →
          calculatePower 250 = 10 + Int.ceil (((250 : Int) : ℚ) / 100))) :=
  ⟨by decide, calculatePower_truncates 250 (by decide)⟩

/-- C5: `calculatePower` is monotonic non-decreasing on `int64` balances, and
`calculatePower 0 = 10`. -/
theorem calculatePower_monotone (a b : Int) (ha : isInt64 a) (hb : isInt64 b)
    (hab : a ≤ b) : calculatePower a ≤ calculatePower b ∧ calculatePower 0 = 10 := by
  refine ⟨?_, by decide⟩
  rw [calculatePower_eq ha, calculatePower_eq hb]
  unfold isInt64 at ha hb
  rcases lt_or_le a 0 with h1 | h1 <;> rcases lt_or_le b 0 with h2 | h2
  · rw [tdiv_hundred_neg h1, tdiv_hundred_neg h2]; omega
  · rw [tdiv_hundred_neg h1, tdiv_hundred_nonneg h2]; omega
  · omega
  · rw [tdiv_hundred_nonneg h1, tdiv_hundred_nonneg h2]; omega

theorem calculatePower_monotone_witness :
    isInt64 (-150) ∧ isInt64 250 ∧ (-150 : Int) ≤ 250 ∧
      (calculatePower (-150) ≤ calculatePower 250 ∧ calculatePower 0 = 10) :=
  ⟨by decide, by decide, by decide,
    calculatePower_monotone (-150) 250 (by decide) (by decide) (by decide)⟩

/-! ## Splitting, hex and decimal text -/

theorem Split_of_not_mem (sep : Byte) (a : Bytes) (h : sep ∉ a) : Split sep a = [a] := by
  induction a with
  | nil => rfl
  | cons c cs ih =>
    have hc : c ≠ sep := fun e => h (e ▸ List.mem_cons_self _ _)
    have hcs : sep ∉ cs := fun e => h (List.mem_cons_of_mem _ e)
    simp [Split, hc, ih hcs]

theorem Split_append (sep : Byte) (a b : Bytes) (h : sep ∉ a) :
    Split sep (a ++ sep :: b) = a :: Split sep b := by
  induction a with
  | nil => simp [Split]
  | cons c cs ih =>
    have hc : c ≠ sep := fun e => h (e ▸ List.mem_cons_self _ _)
    have hcs : sep ∉ cs := fun e => h (List.mem_cons_of_mem _ e)
    simp [Split, hc, ih hcs]

theorem Split_two (sep : Byte) (a b : Bytes) (ha : sep ∉ a) (hb : sep ∉ b) :
    Split sep (a ++ [sep] ++ b) = [a, b] := by
  rw [List.append_assoc, List.singleton_append, Split_append sep a b ha,
    Split_of_not_mem sep b hb]

theorem hexUpper_nibble : ∀ n : Fin 16,
    fromHexChar (hexUpper n.val) = some n.val ∧ hexUpper n.val ≠ slash := by
  decide

theorem hexUpper_decode (b : Byte) :
    fromHexChar (hexUpper (b.val / 16)) = some (b.val / 16) ∧
      fromHexChar (hexUpper (b.val % 16)) = some (b.val % 16) ∧
      hexUpper (b.val / 16) ≠ slash ∧ hexUpper (b.val % 16) ≠ slash := by
  have hb := b.isLt
  have h1 := hexUpper_nibble ⟨b.val / 16, by omega⟩
  have h2 := hexUpper_nibble ⟨b.val % 16, by omega⟩
  exact ⟨h1.1, h2.1, h1.2, h2.2⟩

theorem DecodeString_fmtX (bs : Bytes) : DecodeString (fmtX bs) = some bs := by
  induction bs with
  | nil => rfl
  | cons b t ih =>
    have hb := hexUpper_decode b
    have e : fmtX (b :: t) = hexUpper (b.val / 16) :: hexUpper (b.val % 16) :: fmtX t := rfl
    have hv : (Fin.ofNat (b.val / 16 * 16 + b.val % 16) : Byte) = b := by
      apply Fin.ext
      show (b.val / 16 * 16 + b.val % 16) % 256 = b.val
      have := b.isLt
      omega
    rw [e]
    simp only [DecodeString, hb.1, hb.2.1, ih, hv]

theorem slash_not_mem_fmtX (bs : Bytes) : slash ∉ fmtX bs := by
  induction bs with
  | nil => simp [fmtX]
  | cons b t ih =>
    have hb := hexUpper_decode b
    have e : fmtX (b :: t) = hexUpper (b.val / 16) :: hexUpper (b.val % 16) :: fmtX t := rfl
    rw [e]
    intro h
    rcases List.mem_cons.1 h with h | h
    · exact hb.2.2.1 h.symm
    · rcases List.mem_cons.1 h with h | h
      · exact hb.2.2.2 h.symm
      · exact ih h

theorem digit_val (n : Nat) (h : n < 10) : (Fin.ofNat (48 + n) : Byte).val = 48 + n := by
  show (48 + n) % 256 = 48 + n
  omega

theorem decDigits_digit (fuel n : Nat) :
    ∀ c ∈ decDigits fuel n, 48 ≤ c.val ∧ c.val ≤ 57 := by
  induction fuel generalizing n with
  | zero => intro c hc; simp [decDigits] at hc
  | succ f ih =>
    intro c hc
    unfold decDigits at hc
    split_ifs at hc with h
    · rw [List.mem_singleton] at hc
      rw [hc, digit_val n h]
      omega
    · rcases List.mem_append.1 hc with h1 | h1
      · exact ih _ c h1
      · rw [List.mem_singleton] at h1
        rw [h1, digit_val (n % 10) (Nat.mod_lt _ (by decide))]
        omega

theorem decDigits_ne_nil (fuel n : Nat) : decDigits (fuel + 1) n ≠ [] := by
  unfold decDigits
  split_ifs <;> simp

theorem parseDigits_append (xs : Bytes) (d : Byte) (acc : Nat) :
    parseDigits (xs ++ [d]) acc =
      match parseDigits xs acc with
      | some a => if 48 ≤ d.val ∧ d.val ≤ 57 then some (a * 10 + (d.val - 48)) else none
      | none => none := by
  induction xs generalizing acc with
  | nil => simp [parseDigits]
  | cons c cs ih =>
    by_cases hc : 48 ≤ c.val ∧ c.val ≤ 57
    · simp only [List.cons_append, parseDigits, hc, and_self, if_true]
      exact ih _
    · simp only [List.cons_append, parseDigits, hc, if_false]

theorem parseDigits_decDigits (fuel n : Nat) (h : n < fuel) :
    parseDigits (decDigits fuel n) 0 = some n := by
  induction fuel generalizing n with
  | zero => omega
  | succ f ih =>
    unfold decDigits
    split_ifs with h1
    · have hv := digit_val n h1
      simp only [parseDigits, hv]
      have h2 : 48 ≤ 48 + n ∧ 48 + n ≤ 57 := by omega
      simp [h2]
    · have hv := digit_val (n % 10) (Nat.mod_lt _ (by decide))
      have hm : n % 10 < 10 := Nat.mod_lt _ (by decide)
      rw [parseDigits_append, ih (n / 10) (by omega), hv]
      have h2 : 48 ≤ 48 + n % 10 ∧ 48 + n % 10 ≤ 57 := by omega
      simp only [h2, and_self, if_true]
      congr 1
      omega

theorem ParseUint_fmtNat (n : Nat) (h : n < 2 ^ 64) : ParseUint (fmtNat n) = some n := by
  unfold ParseUint fmtNat
  rw [if_neg (decDigits_ne_nil n n), parseDigits_decDigits (n + 1) n (by omega)]
  show (if n < 2 ^ 64 then some n else none) = some n
  rw [if_pos h]

theorem fmtNat_head (n : Nat) :
    ∃ c cs, fmtNat n = c :: cs ∧ 48 ≤ c.val ∧ c.val ≤ 57 := by
  have hne := decDigits_ne_nil n n
  have hd := decDigits_digit (n + 1) n
  unfold fmtNat
  cases hl : decDigits (n + 1) n with
  | nil => exact absurd hl hne
  | cons c cs =>
    rw [hl] at hd
    exact ⟨c, cs, rfl, hd c (List.mem_cons_self _ _)⟩

theorem ParseInt_fmtD (p : Int) (h : isInt64 p) : ParseInt (fmtD p) = some p := by
  unfold isInt64 at h
  unfold fmtD
  split_ifs with hp
  · have hu := ParseUint_fmtNat p.natAbs (by omega)
    have h63 : ¬ (2 ^ 63 < p.natAbs) := by omega
    have hb : (if (45 : Byte) = 43 ∨ (45 : Byte) = 45 then fmtNat p.natAbs
        else 45 :: fmtNat p.natAbs) = fmtNat p.natAbs := if_pos (Or.inr rfl)
    have hn : decide ((45 : Byte) = 45) = true := rfl
    show (match ParseUint (if (45 : Byte) = 43 ∨ (45 : Byte) = 45 then fmtNat p.natAbs
        else 45 :: fmtNat p.natAbs) with
      | none => none
      | some un =>
        if decide ((45 : Byte) = 45) = false ∧ 2 ^ 63 ≤ un then none
        else if decide ((45 : Byte) = 45) = true ∧ 2 ^ 63 < un then none
        else some (if decide ((45 : Byte) = 45) then -(un : Int) else (un : Int))) = some p
    rw [hb, hu, hn]
    show (if true = false ∧ 2 ^ 63 ≤ p.natAbs then none
        else if true = true ∧ 2 ^ 63 < p.natAbs then none
        else some (if true = true then -(p.natAbs : Int) else (p.natAbs : Int))) = some p
    rw [if_neg (fun hh => Bool.noConfusion hh.1), if_neg (fun hh => h63 hh.2), if_pos rfl]
    congr 1
    omega
  · obtain ⟨c, cs, hcs, hc1, hc2⟩ := fmtNat_head p.natAbs
    have hu := ParseUint_fmtNat p.natAbs (by omega)
    rw [hcs] at hu ⊢
    have h43 : c ≠ 43 := by
      intro e; rw [e] at hc1; revert hc1; decide
    have h45 : c ≠ 45 := by
      intro e; rw [e] at hc1; revert hc1; decide
    have h63 : ¬ (2 ^ 63 ≤ p.natAbs) := by omega
    simp only [ParseInt, h43, h45, or_self, if_false, hu]
    rw [if_neg (fun hh => h63 hh.2), if_neg (fun hh => Bool.noConfusion hh.1)]
    have hd : (if decide False = true then -(p.natAbs : Int) else (p.natAbs : Int)) =
        (p.natAbs : Int) := if_neg (fun hh => Bool.noConfusion hh)
    rw [hd]
    congr 1
    omega

theorem slash_not_mem_fmtD (p : Int) : slash ∉ fmtD p := by
  have hd : ∀ n, slash ∉ fmtNat n := by
    intro n hm
    have := decDigits_digit (n + 1) n slash hm
    revert this
    decide
  unfold fmtD
  split_ifs
  · intro hm
    rcases List.mem_cons.1 hm with h1 | h1
    · revert h1; decide
    · exact hd _ h1
  · exact hd _

/-! ## Store laws -/

theorem lookup_insert_self (k v : Bytes) (l : List (Bytes × Bytes)) :
    lookupEntry k (insertEntry k v l) = some v := by
  induction l with
  | nil => simp [insertEntry, lookupEntry]
  | cons e es ih =>
    unfold insertEntry
    split_ifs with h1 h2
    · simp [lookupEntry]
    · simp [lookupEntry]
    · have h3 : e.1 ≠ k := fun h => h2 h.symm
      simp [lookupEntry, h3, ih]

theorem lookup_insert_ne (k v k1 : Bytes) (l : List (Bytes × Bytes)) (h : k1 ≠ k) :
    lookupEntry k1 (insertEntry k v l) = lookupEntry k1 l := by
  have hk : k ≠ k1 := fun e => h e.symm
  induction l with
  | nil => simp [insertEntry, lookupEntry, hk]
  | cons e es ih =>
    unfold insertEntry
    split_ifs with h1 h2
    · simp [lookupEntry, hk]
    · have h3 : e.1 ≠ k1 := fun e1 => hk (h2.trans e1)
      simp [lookupEntry, hk, h3]
    · by_cases h3 : e.1 = k1
      · simp [lookupEntry, h3]
      · simp [lookupEntry, h3, ih]

theorem eraseEntry_cons (k : Bytes) (e : Bytes × Bytes) (es : List (Bytes × Bytes)) :
    eraseEntry k (e :: es) = if e.1 = k then eraseEntry k es else e :: eraseEntry k es := by
  unfold eraseEntry
  by_cases h : e.1 = k
  · simp [List.filter, h]
  · simp [List.filter, h]

theorem lookup_erase_self (k : Bytes) (l : List (Bytes × Bytes)) :
    lookupEntry k (eraseEntry k l) = none := by
  induction l with
  | nil => rfl
  | cons e es ih =>
    rw [eraseEntry_cons]
    split_ifs with h
    · exact ih
    · simp [lookupEntry, h, ih]

theorem lookup_erase_ne (k k1 : Bytes) (l : List (Bytes × Bytes)) (h : k1 ≠ k) :
    lookupEntry k1 (eraseEntry k l) = lookupEntry k1 l := by
  induction l with
  | nil => rfl
  | cons e es ih =>
    rw [eraseEntry_cons]
    split_ifs with h1
    · have h2 : e.1 ≠ k1 := fun e1 => h (e1.symm.trans h1)
      simp [lookupEntry, h2, ih]
    · by_cases h2 : e.1 = k1
      · simp [lookupEntry, h2]
      · simp [lookupEntry, h2, ih]

theorem lookup_eq_some_iff_mem (l : List (Bytes × Bytes))
    (hs : l.Pairwise (fun a b => a.1 < b.1)) (k v : Bytes) :
    lookupEntry k l = some v ↔ (k, v) ∈ l := by
  induction l with
  | nil => simp [lookupEntry]
  | cons e es ih =>
    have hes := List.pairwise_cons.1 hs
    by_cases h : e.1 = k
    · simp only [lookupEntry, h, if_true, List.mem_cons]
      constructor
      · intro hv
        left
        cases hv
        rw [← h]
      · intro hm
        rcases hm with hm | hm
        · rw [← hm]
        · have := hes.1 (k, v) hm
          rw [h] at this
          exact absurd this (lt_irrefl _)
    · simp only [lookupEntry, h, if_false, List.mem_cons, ih hes.2]
      constructor
      · exact Or.inr
      · intro hm
        rcases hm with hm | hm
        · exact absurd (by rw [← hm]) h
        · exact hm

namespace DB

theorem ext_entries {a b : DB} (h : a.entries = b.entries) : a = b := by
  cases a; cases b; cases h; rfl

theorem Get_Set_self (db : DB) (k v : Bytes) : (db.Set k v).Get k = some v :=
  lookup_insert_self k v db.entries

theorem Get_Set_ne (db : DB) (k v k1 : Bytes) (h : k1 ≠ k) :
    (db.Set k v).Get k1 = db.Get k1 :=
  lookup_insert_ne k v k1 db.entries h

theorem Get_Delete_self (db : DB) (k : Bytes) : (db.Delete k).Get k = none :=
  lookup_erase_self k db.entries

theorem Get_Delete_ne (db : DB) (k k1 : Bytes) (h : k1 ≠ k) :
    (db.Delete k).Get k1 = db.Get k1 :=
  lookup_erase_ne k k1 db.entries h

theorem Get_eq_some_iff (db : DB) (k v : Bytes) : db.Get k = some v ↔ (k, v) ∈ db.entries :=
  lookup_eq_some_iff_mem db.entries db.sorted k v

end DB

/-! ## Keys and dispatch -/

theorem isValidatorTx_val (x : Bytes) : isValidatorTx (ValidatorSetChangePrefix ++ x) = true := by
  simp [isValidatorTx, HasPrefix, ValidatorSetChangePrefix]

theorem isValidatorTx_valacc (x : Bytes) :
    isValidatorTx (ValidatorAccountPrefix ++ x) = false := by
  simp [isValidatorTx, HasPrefix, ValidatorSetChangePrefix, ValidatorAccountPrefix,
    List.isPrefixOf]

theorem isValidatorAccountTx_valacc (x : Bytes) :
    isValidatorAccountTx (ValidatorAccountPrefix ++ x) = true := by
  simp [isValidatorAccountTx, HasPrefix, ValidatorAccountPrefix]

theorem isValidatorAccountTx_val (x : Bytes) :
    isValidatorAccountTx (ValidatorSetChangePrefix ++ x) = false := by
  simp [isValidatorAccountTx, HasPrefix, ValidatorSetChangePrefix, ValidatorAccountPrefix,
    List.isPrefixOf]

theorem drop_val (x : Bytes) :
    (ValidatorSetChangePrefix ++ x).drop ValidatorSetChangePrefix.length = x := by
  simp

theorem drop_valacc (x : Bytes) :
    (ValidatorAccountPrefix ++ x).drop ValidatorAccountPrefix.length = x := by
  simp

theorem val_ne_valacc (a b : Bytes) :
    ValidatorSetChangePrefix ++ a ≠ ValidatorAccountPrefix ++ b := by
  intro h
  have := congrArg isValidatorTx h
  rw [isValidatorTx_val, isValidatorTx_valacc] at this
  exact Bool.noConfusion this

theorem val_ne_val {a b : Bytes} (h : a ≠ b) :
    ValidatorSetChangePrefix ++ a ≠ ValidatorSetChangePrefix ++ b :=
  fun e => h (List.append_cancel_left e)

theorem valacc_ne_valacc {a b : Bytes} (h : a ≠ b) :
    ValidatorAccountPrefix ++ a ≠ ValidatorAccountPrefix ++ b :=
  fun e => h (List.append_cancel_left e)

theorem eq_valacc_of_isValidatorAccountTx (k : Bytes) (h : isValidatorAccountTx k = true) :
    k = ValidatorAccountPrefix ++ k.drop ValidatorAccountPrefix.length := by
  unfold isValidatorAccountTx HasPrefix at h
  obtain ⟨t, ht⟩ := List.isPrefixOf_iff_prefix.1 h
  rw [← ht]
  simp

theorem eq_val_of_isValidatorTx (k : Bytes) (h : isValidatorTx k = true) :
    k = ValidatorSetChangePrefix ++ k.drop ValidatorSetChangePrefix.length := by
  unfold isValidatorTx HasPrefix at h
  obtain ⟨t, ht⟩ := List.isPrefixOf_iff_prefix.1 h
  rw [← ht]
  simp

/-! ## The example codec -/

theorem takeBytes_putBytes (bs rest : Bytes) :
    takeBytes (putBytes bs ++ rest) = some (bs, rest) := by
  induction bs with
  | nil =>
    cases rest with
    | nil => rfl
    | cons r rs => rfl
  | cons b t ih =>
    have e : putBytes (b :: t) ++ rest = 1 :: b :: (putBytes t ++ rest) := by
      simp [putBytes]
    rw [e]
    have h10 : (1 : Byte) ≠ 0 := by decide
    simp only [takeBytes, h10, if_false, if_true, ih]

theorem exampleEnv_CodecOk : exampleEnv.CodecOk := by
  intro v hv
  refine ⟨_, rfl, ?_⟩
  show exampleRead (putBytes v.PubKey.Kind ++ (putBytes v.PubKey.Data ++ fmtD v.Power)) = some v
  unfold exampleRead
  simp only [takeBytes_putBytes, ParseInt_fmtD v.Power hv]

theorem wrapInt64_isInt64 (x : Int) : isInt64 (wrapInt64 x) := by
  unfold isInt64 wrapInt64
  omega

theorem calculatePower_isInt64 (x : Int) : isInt64 (calculatePower x) :=
  wrapInt64_isInt64 _

/-! ## Transactions -/

theorem DeliverTx_val (env : Env) (app : App) (pubkeyS powerS : Bytes)
    (h1 : slash ∉ pubkeyS) (h2 : slash ∉ powerS) :
    DeliverTx env app (ValidatorSetChangePrefix ++ (pubkeyS ++ [slash] ++ powerS)) =
      match DecodeString pubkeyS with
      | none => (app, ⟨CodeTypeEncodingError⟩)
      | some pubkey =>
        match ParseInt powerS with
        | none => (app, ⟨CodeTypeEncodingError⟩)
        | some power => updateValidator env app (Ed25519Validator pubkey power) := by
  unfold DeliverTx
  rw [isValidatorTx_val, if_pos rfl]
  unfold execValidatorTx
  simp only [drop_val, Split_two slash pubkeyS powerS h1 h2]

theorem DeliverTx_valacc (env : Env) (app : App) (pubkeyS accountS : Bytes)
    (h1 : slash ∉ pubkeyS) (h2 : slash ∉ accountS) :
    DeliverTx env app (ValidatorAccountPrefix ++ (pubkeyS ++ [slash] ++ accountS)) =
      match DecodeString pubkeyS with
      | none => (app, ⟨CodeTypeEncodingError⟩)
      | some pubkey =>
        match env.BalanceOf accountS with
        | none => (app, ⟨CodeTypeEncodingError⟩)
        | some balance =>
          updateValidator env (updateAccount app pubkey accountS)
            (Ed25519Validator pubkey (calculatePower balance)) := by
  unfold DeliverTx
  rw [isValidatorTx_valacc, if_neg Bool.false_ne_true, isValidatorAccountTx_valacc, if_pos rfl]
  unfold execValidatorAccountTx
  simp only [drop_valacc, Split_two slash pubkeyS accountS h1 h2]

theorem MakeValSetChangeTx_eq (pubkey : PubKey) (power : Int) :
    MakeValSetChangeTx pubkey power =
      ValidatorSetChangePrefix ++ (fmtX pubkey.Data ++ [slash] ++ fmtD power) := by
  simp [MakeValSetChangeTx]

theorem DeliverTx_MakeValSetChangeTx (env : Env) (app : App) (pubkey : PubKey) (power : Int)
    (h : isInt64 power) :
    DeliverTx env app (MakeValSetChangeTx pubkey power) =
      updateValidator env app (Ed25519Validator pubkey.Data power) := by
  rw [MakeValSetChangeTx_eq, DeliverTx_val env app _ _ (slash_not_mem_fmtX _)
    (slash_not_mem_fmtD _)]
  simp only [DecodeString_fmtX, ParseInt_fmtD power h]

theorem fromHexChar_slash : fromHexChar slash = none := by decide

theorem slash_not_mem_of_DecodeString_aux (n : Nat) :
    ∀ s : Bytes, s.length ≤ n → ∀ x, DecodeString s = some x → slash ∉ s := by
  induction n using Nat.strong_induction_on with
  | _ n ih =>
    intro s hn x h
    match s, hn, h with
    | [], _, _ => simp
    | [c], _, h => simp [DecodeString] at h
    | a :: b :: rest, hn, h =>
      unfold DecodeString at h
      cases ha : fromHexChar a with
      | none => simp [ha] at h
      | some xa =>
        cases hb : fromHexChar b with
        | none => simp [ha, hb] at h
        | some xb =>
          cases hr : DecodeString rest with
          | none => simp [ha, hb, hr] at h
          | some t =>
            have hna : a ≠ slash := by
              intro e; rw [e, fromHexChar_slash] at ha; exact Option.noConfusion ha
            have hnb : b ≠ slash := by
              intro e; rw [e, fromHexChar_slash] at hb; exact Option.noConfusion hb
            have hlen : rest.length < n := by
              simp only [List.length_cons] at hn
              omega
            intro hm
            rcases List.mem_cons.1 hm with h1 | h1
            · exact hna h1.symm
            · rcases List.mem_cons.1 h1 with h2 | h2
              · exact hnb h2.symm
              · exact ih rest.length hlen rest (le_refl _) t hr h2

theorem slash_not_mem_of_DecodeString (s x : Bytes) (h : DecodeString s = some x) :
    slash ∉ s :=
  slash_not_mem_of_DecodeString_aux s.length s (le_refl _) x h

theorem updateValidator_zero_absent (env : Env) (app : App) (v : Validator)
    (hp : v.Power = 0) (hk : app.db.Has (ValidatorSetChangePrefix ++ v.PubKey.Data) = false) :
    updateValidator env app v = (app, ⟨CodeTypeUnauthorized⟩) := by
  unfold updateValidator
  simp only [hp, hk, if_true]

theorem updateValidator_zero_present (env : Env) (app : App) (v : Validator)
    (hp : v.Power = 0) (hk : app.db.Has (ValidatorSetChangePrefix ++ v.PubKey.Data) = true) :
    updateValidator env app v =
      (⟨(app.db.Delete (ValidatorSetChangePrefix ++ v.PubKey.Data)).Delete
          (ValidatorAccountPrefix ++ v.PubKey.Data), app.ValUpdates ++ [v]⟩,
        ⟨CodeTypeOK⟩) := by
  unfold updateValidator
  simp only [hp, hk, if_true, deleteAccount]
  rfl

theorem updateValidator_nonzero (env : Env) (app : App) (v : Validator) (value : Bytes)
    (hp : v.Power ≠ 0) (hw : env.WriteMessage v = some value) :
    updateValidator env app v =
      (⟨app.db.Set (ValidatorSetChangePrefix ++ v.PubKey.Data) value, app.ValUpdates ++ [v]⟩,
        ⟨CodeTypeOK⟩) := by
  unfold updateValidator
  simp only [hp, if_false, hw]

/-! ## Claims about single transactions -/

/-- C2: when `pk` has no persisted validator entry, `DeliverTx` of `val:<hex pk>/0`
returns `Unauthorized` and leaves the store and `ValUpdates` as they were. -/
theorem deliverTx_remove_absent_unauthorized (env : Env) (app : App) (pubkey : PubKey)
    (h : app.db.Has (ValidatorSetChangePrefix ++ pubkey.Data) = false) :
    DeliverTx env app (MakeValSetChangeTx pubkey 0) = (app, ⟨CodeTypeUnauthorized⟩) := by
  rw [DeliverTx_MakeValSetChangeTx env app pubkey 0 (by decide)]
  exact updateValidator_zero_absent env app _ rfl h

theorem deliverTx_remove_absent_unauthorized_witness :
    (⟨DB.empty, []⟩ : App).db.Has (ValidatorSetChangePrefix ++ (⟨TypeEd25519, [1, 2]⟩ : PubKey).Data)
        = false ∧
      DeliverTx exampleEnv ⟨DB.empty, []⟩ (MakeValSetChangeTx ⟨TypeEd25519, [1, 2]⟩ 0) =
        (⟨DB.empty, []⟩, ⟨CodeTypeUnauthorized⟩) :=
  ⟨rfl, deliverTx_remove_absent_unauthorized exampleEnv ⟨DB.empty, []⟩ ⟨TypeEd25519, [1, 2]⟩ rfl⟩

/-- C3: when `pk` has a persisted validator, `updateValidator` with power 0 succeeds and
deletes both `"val:"+pk` and `"valacc:"+pk`; a following `updateValidator` with any
`int64` power `p ≠ 0` succeeds and recreates the validator entry (it reads back as the
validator written), while the account link stays absent. -/
theorem updateValidator_remove_drops_link (env : Env) (hc : env.CodecOk) (app : App)
    (pubkey : PubKey)
    (h : app.db.Has (ValidatorSetChangePrefix ++ pubkey.Data) = true) :
    (updateValidator env app ⟨pubkey, 0⟩).2 = ⟨CodeTypeOK⟩ ∧
      (updateValidator env app ⟨pubkey, 0⟩).1.db.Get (ValidatorSetChangePrefix ++ pubkey.Data)
        = none ∧
      (updateValidator env app ⟨pubkey, 0⟩).1.db.Get (ValidatorAccountPrefix ++ pubkey.Data)
        = none ∧
      ∀ p : Int, isInt64 p → p ≠ 0 →
        (updateValidator env (updateValidator env app ⟨pubkey, 0⟩).1 ⟨pubkey, p⟩).2
            = ⟨CodeTypeOK⟩ ∧
          (∃ value,
            (updateValidator env (updateValidator env app ⟨pubkey, 0⟩).1 ⟨pubkey, p⟩).1.db.Get
                (ValidatorSetChangePrefix ++ pubkey.Data) = some value ∧
              env.ReadMessage value = some ⟨pubkey, p⟩) ∧
          (updateValidator env (updateValidator env app ⟨pubkey, 0⟩).1 ⟨pubkey, p⟩).1.db.Get
              (ValidatorAccountPrefix ++ pubkey.Data) = none := by
  rw [updateValidator_zero_present env app ⟨pubkey, 0⟩ rfl h]
  have hne : ValidatorSetChangePrefix ++ pubkey.Data ≠ ValidatorAccountPrefix ++ pubkey.Data :=
    val_ne_valacc _ _
  refine ⟨rfl, ?_, ?_, ?_⟩
  · show ((app.db.Delete _).Delete _).Get _ = none
    rw [DB.Get_Delete_ne _ _ _ hne, DB.Get_Delete_self]
  · exact DB.Get_Delete_self _ _
  · intro p hp hp0
    obtain ⟨value, hw, hr⟩ := hc ⟨pubkey, p⟩ hp
    rw [updateValidator_nonzero env _ ⟨pubkey, p⟩ value hp0 hw]
    refine ⟨rfl, ⟨value, DB.Get_Set_self _ _ _, hr⟩, ?_⟩
    show (((app.db.Delete _).Delete _).Set _ value).Get _ = none
    rw [DB.Get_Set_ne _ _ _ _ hne.symm]
    exact DB.Get_Delete_self _ _

theorem updateValidator_remove_drops_link_witness :
    exampleApp.db.Has (ValidatorSetChangePrefix ++ exampleKey.Data) = true ∧
      (updateValidator exampleEnv exampleApp ⟨exampleKey, 0⟩).2 = ⟨CodeTypeOK⟩ ∧
      (updateValidator exampleEnv exampleApp ⟨exampleKey, 0⟩).1.db.Get
        (ValidatorAccountPrefix ++ exampleKey.Data) = none :=
  ⟨by decide,
    (updateValidator_remove_drops_link exampleEnv exampleEnv_CodecOk exampleApp exampleKey
      (by decide)).1,
    (updateValidator_remove_drops_link exampleEnv exampleEnv_CodecOk exampleApp exampleKey
      (by decide)).2.2.1⟩

/-- C6: for every key and every `int64` power, `MakeValSetChangeTx` makes a
validator-power transaction whose two fields decode to exactly the key's bytes and the
power, and `DeliverTx` of it is `updateValidator` of that validator: same response, same
state. -/
theorem makeValSetChangeTx_roundtrip (env : Env) (app : App) (pubkey : PubKey) (power : Int)
    (h : isInt64 power) :
    isValidatorTx (MakeValSetChangeTx pubkey power) = true ∧
      (∃ pubkeyS powerS,
        Split slash ((MakeValSetChangeTx pubkey power).drop ValidatorSetChangePrefix.length)
            = [pubkeyS, powerS] ∧
          DecodeString pubkeyS = some pubkey.Data ∧ ParseInt powerS = some power) ∧
      execValidatorTx env app (MakeValSetChangeTx pubkey power) =
        updateValidator env app (Ed25519Validator pubkey.Data power) ∧
      DeliverTx env app (MakeValSetChangeTx pubkey power) =
        updateValidator env app (Ed25519Validator pubkey.Data power) := by
  have hd := DeliverTx_MakeValSetChangeTx env app pubkey power h
  have hv : isValidatorTx (MakeValSetChangeTx pubkey power) = true := by
    rw [MakeValSetChangeTx_eq]; exact isValidatorTx_val _
  refine ⟨hv, ⟨fmtX pubkey.Data, fmtD power, ?_, DecodeString_fmtX _, ParseInt_fmtD _ h⟩,
    ?_, hd⟩
  · rw [MakeValSetChangeTx_eq, drop_val]
    exact Split_two slash _ _ (slash_not_mem_fmtX _) (slash_not_mem_fmtD _)
  · unfold DeliverTx at hd
    rw [hv, if_pos rfl] at hd
    exact hd

theorem makeValSetChangeTx_roundtrip_witness :
    isInt64 (-7) ∧
      DeliverTx exampleEnv exampleApp (MakeValSetChangeTx exampleKey (-7)) =
        updateValidator exampleEnv exampleApp (Ed25519Validator exampleKey.Data (-7)) :=
  ⟨by decide, (makeValSetChangeTx_roundtrip exampleEnv exampleApp exampleKey (-7)
    (by decide)).2.2.2⟩

/-- C7: a transaction that begins with `"val:"` or `"valacc:"` and is malformed (the rest
does not split on `"/"` into exactly two fields, or the public-key field does not decode
as hex, or, for `"val:"`, the power field does not parse as a decimal `int64`) gets the
encoding-error code from `DeliverTx`, which returns and leaves the store and
`ValUpdates` as they were. -/
theorem deliverTx_malformed_rejected (env : Env) (app : App) (tx rest : Bytes)
    (h : (tx = ValidatorSetChangePrefix ++ rest ∧
          ((Split slash rest).length ≠ 2 ∨
            ∃ a b, Split slash rest = [a, b] ∧ (DecodeString a = none ∨ ParseInt b = none))) ∨
        (tx = ValidatorAccountPrefix ++ rest ∧
          ((Split slash rest).length ≠ 2 ∨
            ∃ a b, Split slash rest = [a, b] ∧ DecodeString a = none))) :
    DeliverTx env app tx = (app, ⟨CodeTypeEncodingError⟩) := by
  rcases h with ⟨ht, hm⟩ | ⟨ht, hm⟩
  · subst ht
    unfold DeliverTx
    rw [isValidatorTx_val, if_pos rfl]
    unfold execValidatorTx
    simp only [drop_val]
    rcases hm with hl | ⟨a, b, hs, hab⟩
    · split
      · next a b hs => rw [hs] at hl; exact absurd rfl hl
      · rfl
    · rw [hs]
      rcases hab with ha | hb
      · simp only [ha]
      · simp only [hb]
        cases DecodeString a <;> rfl
  · subst ht
    unfold DeliverTx
    rw [isValidatorTx_valacc, if_neg Bool.false_ne_true, isValidatorAccountTx_valacc,
      if_pos rfl]
    unfold execValidatorAccountTx
    simp only [drop_valacc]
    rcases hm with hl | ⟨a, b, hs, ha⟩
    · split
      · next a b hs => rw [hs] at hl; exact absurd rfl hl
      · rfl
    · rw [hs]
      simp only [ha]

theorem deliverTx_malformed_rejected_witness :
    DeliverTx exampleEnv exampleApp (ValidatorSetChangePrefix ++ [48, 49, 47, 120]) =
      (exampleApp, ⟨CodeTypeEncodingError⟩) :=
  deliverTx_malformed_rejected exampleEnv exampleApp _ [48, 49, 47, 120]
    (Or.inl ⟨rfl, Or.inr ⟨[48, 49], [120], by decide, Or.inr (by decide)⟩⟩)

/-- C8: for a well-formed `valacc:<hex pk>/<address>` whose address the oracle fails on,
`DeliverTx` returns the encoding-error code, which is not `OK`, and the state is as it
was: no link written, no validator entry changed, `ValUpdates` unchanged. -/
theorem deliverTx_valacc_oracle_failure (env : Env) (app : App)
    (pubkeyS accountS pubkey : Bytes) (h1 : DecodeString pubkeyS = some pubkey)
    (h2 : slash ∉ accountS) (h3 : env.BalanceOf accountS = none) :
    DeliverTx env app (ValidatorAccountPrefix ++ (pubkeyS ++ [slash] ++ accountS)) =
        (app, ⟨CodeTypeEncodingError⟩) ∧
      CodeTypeEncodingError ≠ CodeTypeOK := by
  refine ⟨?_, by decide⟩
  rw [DeliverTx_valacc env app _ _ (slash_not_mem_of_DecodeString _ _ h1) h2]
  simp only [h1, h3]

theorem deliverTx_valacc_oracle_failure_witness :
    DecodeString [48, 49, 48, 50] = some [1, 2] ∧ slash ∉ ([99] : Bytes) ∧
      exampleEnv.BalanceOf [99] = none ∧
      (DeliverTx exampleEnv exampleApp
          (ValidatorAccountPrefix ++ ([48, 49, 48, 50] ++ [slash] ++ [99])) =
        (exampleApp, ⟨CodeTypeEncodingError⟩) ∧
      CodeTypeEncodingError ≠ CodeTypeOK) :=
  ⟨by decide, by decide, by decide,
    deliverTx_valacc_oracle_failure exampleEnv exampleApp [48, 49, 48, 50] [99] [1, 2]
      (by decide) (by decide) (by decide)⟩

/-- C9: for a well-formed `valacc:<hex pk>/<address>` whose address has balance `b` with
`calculatePower b ≠ 0`, `DeliverTx` returns `OK`; afterwards the account link of `pk` is
exactly the address, the persisted validator of `pk` reads back as `pk` with power
`calculatePower b`, and that validator has been appended to `ValUpdates`. -/
theorem deliverTx_valacc_links_and_sets_power (env : Env) (hc : env.CodecOk) (app : App)
    (pubkeyS accountS pubkey : Bytes) (b : Int) (h1 : DecodeString pubkeyS = some pubkey)
    (h2 : slash ∉ accountS) (h3 : env.BalanceOf accountS = some b)
    (h4 : calculatePower b ≠ 0) :
    (DeliverTx env app (ValidatorAccountPrefix ++ (pubkeyS ++ [slash] ++ accountS))).2
        = ⟨CodeTypeOK⟩ ∧
      (DeliverTx env app (ValidatorAccountPrefix ++ (pubkeyS ++ [slash] ++ accountS))).1.db.Get
        (ValidatorAccountPrefix ++ pubkey) = some accountS ∧
      (∃ value,
        (DeliverTx env app
            (ValidatorAccountPrefix ++ (pubkeyS ++ [slash] ++ accountS))).1.db.Get
            (ValidatorSetChangePrefix ++ pubkey) = some value ∧
          env.ReadMessage value = some (Ed25519Validator pubkey (calculatePower b))) ∧
      (DeliverTx env app
          (ValidatorAccountPrefix ++ (pubkeyS ++ [slash] ++ accountS))).1.ValUpdates =
        app.ValUpdates ++ [Ed25519Validator pubkey (calculatePower b)] := by
  rw [DeliverTx_valacc env app _ _ (slash_not_mem_of_DecodeString _ _ h1) h2]
  simp only [h1, h3]
  obtain ⟨value, hw, hr⟩ :=
    hc (Ed25519Validator pubkey (calculatePower b)) (calculatePower_isInt64 b)
  rw [updateValidator_nonzero env _ _ value h4 hw]
  refine ⟨rfl, ?_, ⟨value, DB.Get_Set_self _ _ _, hr⟩, rfl⟩
  show ((app.db.Set (ValidatorAccountPrefix ++ pubkey) accountS).Set
    (ValidatorSetChangePrefix ++ pubkey) value).Get (ValidatorAccountPrefix ++ pubkey) = _
  rw [DB.Get_Set_ne _ _ _ _ (val_ne_valacc _ _).symm, DB.Get_Set_self]

theorem deliverTx_valacc_links_and_sets_power_witness :
    DecodeString [48, 49, 48, 50] = some [1, 2] ∧ slash ∉ ([98] : Bytes) ∧
      exampleEnv.BalanceOf [98] = some 250 ∧ calculatePower 250 ≠ 0 ∧
      (DeliverTx exampleEnv exampleApp
          (ValidatorAccountPrefix ++ ([48, 49, 48, 50] ++ [slash] ++ [98]))).1.db.Get
        (ValidatorAccountPrefix ++ [1, 2]) = some [98] :=
  ⟨by decide, by decide, by decide, by decide,
    (deliverTx_valacc_links_and_sets_power exampleEnv exampleEnv_CodecOk exampleApp
      [48, 49, 48, 50] [98] [1, 2] 250 (by decide) (by decide) (by decide) (by decide)).2.1⟩

/-! ## Listing the validators -/

theorem collectValidators_none_for (env : Env) (pk : Bytes) (l : List (Bytes × Bytes))
    (hv : ValidEntries env l) (hk : ∀ e ∈ l, e.1 ≠ ValidatorSetChangePrefix ++ pk) :
    ∃ vs, collectValidators env l = some vs ∧
      vs.filter (fun v => decide (v.PubKey.Data = pk)) = [] := by
  induction l with
  | nil => exact ⟨[], rfl, rfl⟩
  | cons e es ih =>
    have hv1 : ValidEntries env es := fun x hx => hv x (List.mem_cons_of_mem _ hx)
    have hk1 : ∀ x ∈ es, x.1 ≠ ValidatorSetChangePrefix ++ pk :=
      fun x hx => hk x (List.mem_cons_of_mem _ hx)
    obtain ⟨vs, h1, h2⟩ := ih hv1 hk1
    by_cases hp : isValidatorTx e.1 = true
    · obtain ⟨v, hr, hkey⟩ := hv e (List.mem_cons_self _ _) hp
      have hne : v.PubKey.Data ≠ pk := by
        intro e1
        exact hk e (List.mem_cons_self _ _) (by rw [hkey, e1])
      refine ⟨v :: vs, ?_, ?_⟩
      · simp only [collectValidators, hp, if_true, hr, h1]
      · simp [List.filter, hne, h2]
    · refine ⟨vs, ?_, h2⟩
      simp only [collectValidators, hp, h1]
      rfl

theorem collectValidators_one_for (env : Env) (pk value : Bytes) (v : Validator)
    (hr : env.ReadMessage value = some v) (hd : v.PubKey.Data = pk)
    (l : List (Bytes × Bytes)) (hs : l.Pairwise (fun a b => a.1 < b.1))
    (hv : ValidEntries env l) (hm : (ValidatorSetChangePrefix ++ pk, value) ∈ l) :
    ∃ vs, collectValidators env l = some vs ∧
      vs.filter (fun v => decide (v.PubKey.Data = pk)) = [v] := by
  induction l with
  | nil => exact absurd hm (List.not_mem_nil _)
  | cons e es ih =>
    have hes := List.pairwise_cons.1 hs
    have hv1 : ValidEntries env es := fun x hx => hv x (List.mem_cons_of_mem _ hx)
    rcases List.mem_cons.1 hm with h | h
    · have hk1 : ∀ x ∈ es, x.1 ≠ ValidatorSetChangePrefix ++ pk := by
        intro x hx e1
        have := hes.1 x hx
        rw [← h, e1] at this
        exact lt_irrefl _ this
      obtain ⟨vs, h1, h2⟩ := collectValidators_none_for env pk es hv1 hk1
      refine ⟨v :: vs, ?_, ?_⟩
      · rw [← h]
        simp only [collectValidators, isValidatorTx_val, if_true, hr, h1]
      · simp [List.filter, hd, h2]
    · obtain ⟨vs, h1, h2⟩ := ih hes.2 hv1 h
      have hne : e.1 ≠ ValidatorSetChangePrefix ++ pk := by
        intro e1
        have := hes.1 _ h
        rw [e1] at this
        exact lt_irrefl _ this
      by_cases hp : isValidatorTx e.1 = true
      · obtain ⟨w, hrw, hkey⟩ := hv e (List.mem_cons_self _ _) hp
        have hne1 : w.PubKey.Data ≠ pk := by
          intro e1
          exact hne (by rw [hkey, e1])
        refine ⟨w :: vs, ?_, ?_⟩
        · simp only [collectValidators, hp, if_true, hrw, h1]
        · simp [List.filter, hne1, h2]
      · refine ⟨vs, ?_, h2⟩
        simp only [collectValidators, hp, h1]
        rfl

theorem ValidStore_Set_val (env : Env) (db : DB) (value : Bytes) (v : Validator)
    (hr : env.ReadMessage value = some v) (hs : ValidStore env db) :
    ValidStore env (db.Set (ValidatorSetChangePrefix ++ v.PubKey.Data) value) := by
  intro e he hp
  have hg := (DB.Get_eq_some_iff _ e.1 e.2).2 he
  by_cases hk : e.1 = ValidatorSetChangePrefix ++ v.PubKey.Data
  · rw [hk, DB.Get_Set_self] at hg
    cases hg
    exact ⟨v, hr, hk⟩
  · rw [DB.Get_Set_ne _ _ _ _ hk] at hg
    exact hs e ((DB.Get_eq_some_iff _ e.1 e.2).1 hg) hp

theorem DeliverTx_val_of_ValidStore (env : Env) (hc : env.CodecOk) (app : App)
    (hs : ValidStore env app.db) (pubkey : PubKey) (p : Int) (hp : 0 < p)
    (hp64 : isInt64 p) :
    (DeliverTx env app (MakeValSetChangeTx pubkey p)).2 = ⟨CodeTypeOK⟩ ∧
      (∃ vs, Validators env (DeliverTx env app (MakeValSetChangeTx pubkey p)).1 = some vs ∧
        vs.filter (fun v => decide (v.PubKey.Data = pubkey.Data)) =
          [Ed25519Validator pubkey.Data p]) ∧
      (DeliverTx env app (MakeValSetChangeTx pubkey p)).1.ValUpdates =
        app.ValUpdates ++ [Ed25519Validator pubkey.Data p] := by
  rw [DeliverTx_MakeValSetChangeTx env app pubkey p hp64]
  obtain ⟨value, hw, hr⟩ := hc (Ed25519Validator pubkey.Data p) hp64
  have hp0 : (Ed25519Validator pubkey.Data p).Power ≠ 0 := fun e => absurd e (ne_of_gt hp)
  rw [updateValidator_nonzero env app _ value hp0 hw]
  refine ⟨rfl, ?_, rfl⟩
  have hv := ValidStore_Set_val env app.db value _ hr hs
  exact collectValidators_one_for env pubkey.Data value _ hr rfl _
    (app.db.Set (ValidatorSetChangePrefix ++ pubkey.Data) value).sorted hv
    ((DB.Get_eq_some_iff _ _ _).1 (DB.Get_Set_self _ _ _))

/-! ## End of block -/

theorem updateValidator_Get_val_other (env : Env) (app : App) (v : Validator) (pk : Bytes)
    (h : v.PubKey.Data ≠ pk) :
    (updateValidator env app v).1.db.Get (ValidatorSetChangePrefix ++ pk) =
      app.db.Get (ValidatorSetChangePrefix ++ pk) := by
  have h1 : ValidatorSetChangePrefix ++ pk ≠ ValidatorSetChangePrefix ++ v.PubKey.Data :=
    val_ne_val (fun e => h e.symm)
  by_cases hp : v.Power = 0
  · cases hk : app.db.Has (ValidatorSetChangePrefix ++ v.PubKey.Data) with
    | false => rw [updateValidator_zero_absent env app v hp hk]
    | true =>
      rw [updateValidator_zero_present env app v hp hk]
      show ((app.db.Delete _).Delete _).Get _ = _
      rw [DB.Get_Delete_ne _ _ _ (val_ne_valacc _ _), DB.Get_Delete_ne _ _ _ h1]
  · cases hw : env.WriteMessage v with
    | none =>
      unfold updateValidator
      simp only [hp, if_false, hw]
    | some value =>
      rw [updateValidator_nonzero env app v value hp hw]
      exact DB.Get_Set_ne _ _ _ _ h1

theorem endBlockStep_Get_val_other (env : Env) (app : App) (e : Bytes × Bytes) (pk : Bytes)
    (h : e.1 ≠ ValidatorAccountPrefix ++ pk) :
    (endBlockStep env app e).db.Get (ValidatorSetChangePrefix ++ pk) =
      app.db.Get (ValidatorSetChangePrefix ++ pk) := by
  unfold endBlockStep
  by_cases hp : isValidatorAccountTx e.1 = true
  · have hk := eq_valacc_of_isValidatorAccountTx e.1 hp
    have hne : e.1.drop ValidatorAccountPrefix.length ≠ pk := by
      intro e1
      rw [e1] at hk
      exact h hk
    simp only [hp, if_true]
    cases env.BalanceOf e.2 with
    | none => rfl
    | some balance => exact updateValidator_Get_val_other env app _ pk hne
  · simp only [hp]
    rfl

theorem foldl_endBlockStep_Get_val_other (env : Env) (pk : Bytes) (l : List (Bytes × Bytes))
    (h : ∀ e ∈ l, e.1 ≠ ValidatorAccountPrefix ++ pk) (app : App) :
    (l.foldl (endBlockStep env) app).db.Get (ValidatorSetChangePrefix ++ pk) =
      app.db.Get (ValidatorSetChangePrefix ++ pk) := by
  induction l generalizing app with
  | nil => rfl
  | cons e es ih =>
    rw [List.foldl_cons, ih (fun x hx => h x (List.mem_cons_of_mem _ hx)),
      endBlockStep_Get_val_other env app e pk (h e (List.mem_cons_self _ _))]

theorem endBlockStep_link (env : Env) (app : App) (pk accountS value : Bytes) (b : Int)
    (h2 : env.BalanceOf accountS = some b) (h3 : calculatePower b ≠ 0)
    (hw : env.WriteMessage (Ed25519Validator pk (calculatePower b)) = some value) :
    endBlockStep env app (ValidatorAccountPrefix ++ pk, accountS) =
      ⟨app.db.Set (ValidatorSetChangePrefix ++ pk) value,
        app.ValUpdates ++ [Ed25519Validator pk (calculatePower b)]⟩ := by
  unfold endBlockStep
  simp only [isValidatorAccountTx_valacc, if_true, h2, drop_valacc]
  rw [updateValidator_nonzero env app _ value h3 hw]
  rfl

theorem foldl_endBlockStep_link (env : Env) (pk accountS value : Bytes) (b : Int)
    (h2 : env.BalanceOf accountS = some b) (h3 : calculatePower b ≠ 0)
    (hw : env.WriteMessage (Ed25519Validator pk (calculatePower b)) = some value)
    (l : List (Bytes × Bytes)) (hs : l.Pairwise (fun a b => a.1 < b.1))
    (hm : (ValidatorAccountPrefix ++ pk, accountS) ∈ l) (app : App) :
    (l.foldl (endBlockStep env) app).db.Get (ValidatorSetChangePrefix ++ pk) = some value := by
  induction l generalizing app with
  | nil => exact absurd hm (List.not_mem_nil _)
  | cons e es ih =>
    have hes := List.pairwise_cons.1 hs
    rw [List.foldl_cons]
    rcases List.mem_cons.1 hm with h | h
    · have hk : ∀ x ∈ es, x.1 ≠ ValidatorAccountPrefix ++ pk := by
        intro x hx e1
        have := hes.1 x hx
        rw [← h, e1] at this
        exact lt_irrefl _ this
      rw [foldl_endBlockStep_Get_val_other env pk es hk, ← h,
        endBlockStep_link env app pk accountS value b h2 h3 hw]
      exact DB.Get_Set_self _ _ _
    · exact ih hes.2 h _

theorem EndBlock_link (env : Env) (hc : env.CodecOk) (app : App) (pk accountS : Bytes)
    (b : Int) (h1 : app.db.Get (ValidatorAccountPrefix ++ pk) = some accountS)
    (h2 : env.BalanceOf accountS = some b) (h3 : calculatePower b ≠ 0) :
    ∃ value, (EndBlock env app).1.db.Get (ValidatorSetChangePrefix ++ pk) = some value ∧
      env.ReadMessage value = some (Ed25519Validator pk (calculatePower b)) := by
  obtain ⟨value, hw, hr⟩ :=
    hc (Ed25519Validator pk (calculatePower b)) (calculatePower_isInt64 b)
  exact ⟨value, foldl_endBlockStep_link env pk accountS value b h2 h3 hw app.db.entries
    app.db.sorted ((DB.Get_eq_some_iff _ _ _).1 h1) app, hr⟩

/-- C10: after `EndBlock`, every linked public key whose address lookup succeeds with
balance `b`, where `calculatePower b ≠ 0`, has a persisted validator that reads back as
that key with power `calculatePower b`, whatever was stored for it before; in particular,
two different keys linked to two distinct addresses with balances 0 and 250 end with
powers 10 and 12. -/
theorem endBlock_recomputes_linked_power (env : Env) (hc : env.CodecOk) (app : App) :
    (∀ (pk accountS : Bytes) (b : Int),
        app.db.Get (ValidatorAccountPrefix ++ pk) = some accountS →
        env.BalanceOf accountS = some b → calculatePower b ≠ 0 →
        ∃ value, (EndBlock env app).1.db.Get (ValidatorSetChangePrefix ++ pk) = some value ∧
          env.ReadMessage value = some (Ed25519Validator pk (calculatePower b))) ∧
      (∀ pk1 pk2 a1 a2 : Bytes, pk1 ≠ pk2 → a1 ≠ a2 →
        app.db.Get (ValidatorAccountPrefix ++ pk1) = some a1 →
        app.db.Get (ValidatorAccountPrefix ++ pk2) = some a2 →
        env.BalanceOf a1 = some 0 → env.BalanceOf a2 = some 250 →
        (∃ value, (EndBlock env app).1.db.Get (ValidatorSetChangePrefix ++ pk1) = some value ∧
          env.ReadMessage value = some (Ed25519Validator pk1 10)) ∧
        (∃ value, (EndBlock env app).1.db.Get (ValidatorSetChangePrefix ++ pk2) = some value ∧
          env.ReadMessage value = some (Ed25519Validator pk2 12))) := by
  refine ⟨fun pk accountS b h1 h2 h3 => EndBlock_link env hc app pk accountS b h1 h2 h3, ?_⟩
  intro pk1 pk2 a1 a2 _ _ h1 h2 hb1 hb2
  have e1 : calculatePower 0 = 10 := by decide
  have e2 : calculatePower 250 = 12 := by decide
  have r1 := EndBlock_link env hc app pk1 a1 0 h1 hb1 (by rw [e1]; decide)
  have r2 := EndBlock_link env hc app pk2 a2 250 h2 hb2 (by rw [e2]; decide)
  rw [e1] at r1
  rw [e2] at r2
  exact ⟨r1, r2⟩

theorem endBlock_recomputes_linked_power_witness :
    (∃ value, (EndBlock exampleEnv linkedApp).1.db.Get (ValidatorSetChangePrefix ++ [1])
          = some value ∧
        exampleEnv.ReadMessage value = some (Ed25519Validator [1] 10)) ∧
      (∃ value, (EndBlock exampleEnv linkedApp).1.db.Get (ValidatorSetChangePrefix ++ [2])
          = some value ∧
        exampleEnv.ReadMessage value = some (Ed25519Validator [2] 12)) :=
  (endBlock_recomputes_linked_power exampleEnv exampleEnv_CodecOk linkedApp).2 [1] [2] [97] [98]
    (by decide) (by decide) (by decide) (by decide) (by decide) (by decide)

/-! ## What `updateValidator` does to the rest of the state -/

theorem updateValidator_cases (env : Env) (app : App) (v : Validator) :
    ((updateValidator env app v).1 = app ∧ (updateValidator env app v).2.Code ≠ CodeTypeOK) ∨
      (v.Power = 0 ∧ app.db.Has (ValidatorSetChangePrefix ++ v.PubKey.Data) = true ∧
        updateValidator env app v =
          (⟨(app.db.Delete (ValidatorSetChangePrefix ++ v.PubKey.Data)).Delete
              (ValidatorAccountPrefix ++ v.PubKey.Data), app.ValUpdates ++ [v]⟩,
            ⟨CodeTypeOK⟩)) ∨
      (v.Power ≠ 0 ∧ ∃ value, env.WriteMessage v = some value ∧
        updateValidator env app v =
          (⟨app.db.Set (ValidatorSetChangePrefix ++ v.PubKey.Data) value,
              app.ValUpdates ++ [v]⟩, ⟨CodeTypeOK⟩)) := by
  by_cases hp : v.Power = 0
  · cases hk : app.db.Has (ValidatorSetChangePrefix ++ v.PubKey.Data) with
    | false =>
      left
      rw [updateValidator_zero_absent env app v hp hk]
      exact ⟨rfl, (by decide : CodeTypeUnauthorized ≠ CodeTypeOK)⟩
    | true =>
      right; left
      exact ⟨hp, rfl, updateValidator_zero_present env app v hp hk⟩
  · cases hw : env.WriteMessage v with
    | none =>
      left
      have e : updateValidator env app v = (app, ⟨CodeTypeEncodingError⟩) := by
        unfold updateValidator
        simp only [hp, if_false, hw]
      rw [e]
      exact ⟨rfl, (by decide : CodeTypeEncodingError ≠ CodeTypeOK)⟩
    | some value =>
      right; right
      exact ⟨hp, value, rfl, updateValidator_nonzero env app v value hp hw⟩

theorem updateValidator_ValUpdates (env : Env) (app : App) (v : Validator) :
    (updateValidator env app v).1.ValUpdates =
      if (updateValidator env app v).2.Code = CodeTypeOK then app.ValUpdates ++ [v]
      else app.ValUpdates := by
  rcases updateValidator_cases env app v with ⟨h1, h2⟩ | ⟨_, _, h⟩ | ⟨_, value, _, h⟩
  · rw [if_neg h2, h1]
  · rw [h]; rfl
  · rw [h]; rfl

theorem updateValidator_response_congr (env : Env) (app app2 : App) (v : Validator)
    (h : app.db.Get (ValidatorSetChangePrefix ++ v.PubKey.Data) =
      app2.db.Get (ValidatorSetChangePrefix ++ v.PubKey.Data)) :
    (updateValidator env app v).2 = (updateValidator env app2 v).2 := by
  have hh : app.db.Has (ValidatorSetChangePrefix ++ v.PubKey.Data) =
      app2.db.Has (ValidatorSetChangePrefix ++ v.PubKey.Data) := by
    show (app.db.Get _).isSome = (app2.db.Get _).isSome
    rw [h]
  by_cases hp : v.Power = 0
  · cases hk : app2.db.Has (ValidatorSetChangePrefix ++ v.PubKey.Data) with
    | false =>
      rw [updateValidator_zero_absent env app v hp (hh.trans hk),
        updateValidator_zero_absent env app2 v hp hk]
    | true =>
      rw [updateValidator_zero_present env app v hp (hh.trans hk),
        updateValidator_zero_present env app2 v hp hk]
  · cases hw : env.WriteMessage v with
    | none =>
      unfold updateValidator
      simp only [hp, if_false, hw]
    | some value =>
      rw [updateValidator_nonzero env app v value hp hw,
        updateValidator_nonzero env app2 v value hp hw]

theorem updateValidator_Get_valacc_other (env : Env) (app : App) (v : Validator) (pk : Bytes)
    (h : v.PubKey.Data ≠ pk) :
    (updateValidator env app v).1.db.Get (ValidatorAccountPrefix ++ pk) =
      app.db.Get (ValidatorAccountPrefix ++ pk) := by
  have h1 : ValidatorAccountPrefix ++ pk ≠ ValidatorAccountPrefix ++ v.PubKey.Data :=
    valacc_ne_valacc (fun e => h e.symm)
  rcases updateValidator_cases env app v with ⟨h2, _⟩ | ⟨_, _, h2⟩ | ⟨_, value, _, h2⟩
  · rw [h2]
  · rw [h2]
    show ((app.db.Delete _).Delete _).Get _ = _
    rw [DB.Get_Delete_ne _ _ _ h1, DB.Get_Delete_ne _ _ _ (val_ne_valacc _ _).symm]
  · rw [h2]
    exact DB.Get_Set_ne _ _ _ _ (val_ne_valacc _ _).symm

/-! ## The updates reported at the end of a block -/

theorem endBlockStep_Get_valacc_other (env : Env) (app : App) (e : Bytes × Bytes)
    (pk : Bytes) (h : e.1 ≠ ValidatorAccountPrefix ++ pk) :
    (endBlockStep env app e).db.Get (ValidatorAccountPrefix ++ pk) =
      app.db.Get (ValidatorAccountPrefix ++ pk) := by
  unfold endBlockStep
  by_cases hp : isValidatorAccountTx e.1 = true
  · have hk := eq_valacc_of_isValidatorAccountTx e.1 hp
    have hne : e.1.drop ValidatorAccountPrefix.length ≠ pk := by
      intro e1
      rw [e1] at hk
      exact h hk
    simp only [hp, if_true]
    cases env.BalanceOf e.2 with
    | none => rfl
    | some balance => exact updateValidator_Get_valacc_other env app _ pk hne
  · simp only [hp]
    rfl

theorem endBlockStep_ValUpdates (env : Env) (app : App) (e : Bytes × Bytes) :
    (endBlockStep env app e).ValUpdates =
      app.ValUpdates ++ (expectedUpdate env app e).toList := by
  unfold endBlockStep expectedUpdate
  by_cases hp : isValidatorAccountTx e.1 = true
  · simp only [hp, if_true]
    cases env.BalanceOf e.2 with
    | none => simp
    | some balance =>
      simp only []
      rw [updateValidator_ValUpdates]
      split_ifs <;> simp
  · simp only [hp]
    simp

theorem expectedUpdate_congr (env : Env) (app app2 : App) (e : Bytes × Bytes)
    (h : ∀ pk, e.1 = ValidatorAccountPrefix ++ pk →
      app.db.Get (ValidatorSetChangePrefix ++ pk) = app2.db.Get (ValidatorSetChangePrefix ++ pk)) :
    expectedUpdate env app e = expectedUpdate env app2 e := by
  unfold expectedUpdate
  by_cases hp : isValidatorAccountTx e.1 = true
  · simp only [hp, if_true]
    cases env.BalanceOf e.2 with
    | none => rfl
    | some balance =>
      simp only []
      rw [updateValidator_response_congr env app app2 _
        (h _ (eq_valacc_of_isValidatorAccountTx e.1 hp))]
  · simp only [hp]
    rfl

theorem foldl_endBlockStep_ValUpdates (env : Env) (app0 : App) (l : List (Bytes × Bytes))
    (hs : l.Pairwise (fun a b => a.1 < b.1)) (app : App)
    (h : ∀ e ∈ l, ∀ pk, e.1 = ValidatorAccountPrefix ++ pk →
      app.db.Get (ValidatorSetChangePrefix ++ pk) =
        app0.db.Get (ValidatorSetChangePrefix ++ pk)) :
    (l.foldl (endBlockStep env) app).ValUpdates =
      app.ValUpdates ++ l.filterMap (expectedUpdate env app0) := by
  induction l generalizing app with
  | nil => simp
  | cons e es ih =>
    have hes := List.pairwise_cons.1 hs
    have hstep : ∀ x ∈ es, ∀ pk, x.1 = ValidatorAccountPrefix ++ pk →
        (endBlockStep env app e).db.Get (ValidatorSetChangePrefix ++ pk) =
          app0.db.Get (ValidatorSetChangePrefix ++ pk) := by
      intro x hx pk hk
      have hne : e.1 ≠ ValidatorAccountPrefix ++ pk := by
        intro e1
        have := hes.1 x hx
        rw [e1, hk] at this
        exact lt_irrefl _ this
      rw [endBlockStep_Get_val_other env app e pk hne]
      exact h x (List.mem_cons_of_mem _ hx) pk hk
    rw [List.foldl_cons, ih hes.2 _ hstep, endBlockStep_ValUpdates,
      expectedUpdate_congr env app app0 e (h e (List.mem_cons_self _ _))]
    cases hu : expectedUpdate env app0 e with
    | none => simp [List.filterMap_cons, hu]
    | some v => simp [List.filterMap_cons, hu]

theorem EndBlock_ValUpdates (env : Env) (app : App) :
    (EndBlock env app).1.ValUpdates = expectedUpdates env app :=
  foldl_endBlockStep_ValUpdates env app app.db.entries app.db.sorted app
    (fun _ _ _ _ => rfl)

theorem expectedUpdate_eq_some (env : Env) (app : App) (e : Bytes × Bytes) (v : Validator)
    (h : expectedUpdate env app e = some v) :
    e.1 = ValidatorAccountPrefix ++ v.PubKey.Data ∧
      ∃ b, env.BalanceOf e.2 = some b ∧ v = Ed25519Validator v.PubKey.Data (calculatePower b) ∧
        (updateValidator env app v).2.Code = CodeTypeOK := by
  unfold expectedUpdate at h
  by_cases hp : isValidatorAccountTx e.1 = true
  · simp only [hp, if_true] at h
    cases hb : env.BalanceOf e.2 with
    | none => rw [hb] at h; exact Option.noConfusion h
    | some balance =>
      rw [hb] at h
      simp only [] at h
      split_ifs at h with hc
      cases h
      exact ⟨eq_valacc_of_isValidatorAccountTx e.1 hp, balance, rfl, rfl, hc⟩
  · simp only [hp] at h
    exact Option.noConfusion h

theorem endBlockStep_of_failure (env : Env) (app : App) (e : Bytes × Bytes)
    (h : env.BalanceOf e.2 = none) : endBlockStep env app e = app := by
  unfold endBlockStep
  split_ifs
  · simp only [h]
  · rfl

theorem foldl_endBlockStep_skipped (env : Env) (pk : Bytes) (l : List (Bytes × Bytes))
    (h : ∀ e ∈ l, e.1 = ValidatorAccountPrefix ++ pk → env.BalanceOf e.2 = none) (app : App) :
    (l.foldl (endBlockStep env) app).db.Get (ValidatorSetChangePrefix ++ pk) =
        app.db.Get (ValidatorSetChangePrefix ++ pk) ∧
      (l.foldl (endBlockStep env) app).db.Get (ValidatorAccountPrefix ++ pk) =
        app.db.Get (ValidatorAccountPrefix ++ pk) := by
  induction l generalizing app with
  | nil => exact ⟨rfl, rfl⟩
  | cons e es ih =>
    rw [List.foldl_cons]
    have ih1 := ih (fun x hx => h x (List.mem_cons_of_mem _ hx)) (endBlockStep env app e)
    by_cases hk : e.1 = ValidatorAccountPrefix ++ pk
    · rw [endBlockStep_of_failure env app e (h e (List.mem_cons_self _ _) hk)] at ih1 ⊢
      exact ih1
    · rw [endBlockStep_Get_val_other env app e pk hk,
        endBlockStep_Get_valacc_other env app e pk hk] at ih1
      exact ih1

theorem foldl_endBlockStep_link_zero (env : Env) (pk accountS : Bytes) (b : Int)
    (h2 : env.BalanceOf accountS = some b) (h3 : calculatePower b = 0)
    (l : List (Bytes × Bytes)) (hs : l.Pairwise (fun a b => a.1 < b.1))
    (hm : (ValidatorAccountPrefix ++ pk, accountS) ∈ l) (app : App) :
    (l.foldl (endBlockStep env) app).db.Get (ValidatorSetChangePrefix ++ pk) = none := by
  induction l generalizing app with
  | nil => exact absurd hm (List.not_mem_nil _)
  | cons e es ih =>
    have hes := List.pairwise_cons.1 hs
    rw [List.foldl_cons]
    rcases List.mem_cons.1 hm with h | h
    · have hk : ∀ x ∈ es, x.1 ≠ ValidatorAccountPrefix ++ pk := by
        intro x hx e1
        have := hes.1 x hx
        rw [← h, e1] at this
        exact lt_irrefl _ this
      rw [foldl_endBlockStep_Get_val_other env pk es hk, ← h]
      unfold endBlockStep
      simp only [isValidatorAccountTx_valacc, if_true, h2, drop_valacc, h3]
      cases hh : app.db.Has (ValidatorSetChangePrefix ++ pk) with
      | false =>
        rw [updateValidator_zero_absent env app _ rfl hh]
        have : (app.db.Get (ValidatorSetChangePrefix ++ pk)).isSome = false := hh
        cases hg : app.db.Get (ValidatorSetChangePrefix ++ pk) with
        | none => rfl
        | some x => rw [hg] at this; exact Bool.noConfusion this
      | true =>
        rw [updateValidator_zero_present env app _ rfl hh]
        show ((app.db.Delete _).Delete _).Get _ = none
        rw [DB.Get_Delete_ne _ _ _ (val_ne_valacc _ _)]
        exact DB.Get_Delete_self _ _
    · exact ih hes.2 h _

/-- C11: when the oracle fails for the address linked to `pk`, `EndBlock` returns, leaves
the validator entry and the account link of `pk` as they were, and appends no entry for
`pk` to the updates it returns; every other link whose lookup succeeds is recomputed: its
validator reads back with power `calculatePower b` when that is not 0, and is absent when
it is 0. -/
theorem endBlock_skips_failed_lookup (env : Env) (hc : env.CodecOk) (app : App)
    (pk accountS : Bytes) (h1 : app.db.Get (ValidatorAccountPrefix ++ pk) = some accountS)
    (h2 : env.BalanceOf accountS = none) :
    (EndBlock env app).1.db.Get (ValidatorSetChangePrefix ++ pk) =
        app.db.Get (ValidatorSetChangePrefix ++ pk) ∧
      (EndBlock env app).1.db.Get (ValidatorAccountPrefix ++ pk) = some accountS ∧
      (∃ extra, (EndBlock env app).2.ValidatorUpdates = app.ValUpdates ++ extra ∧
        ∀ v ∈ extra, v.PubKey.Data ≠ pk) ∧
      (∀ (pk2 a2 : Bytes) (b : Int),
        app.db.Get (ValidatorAccountPrefix ++ pk2) = some a2 → env.BalanceOf a2 = some b →
        (calculatePower b ≠ 0 →
          ∃ value, (EndBlock env app).1.db.Get (ValidatorSetChangePrefix ++ pk2) = some value ∧
            env.ReadMessage value = some (Ed25519Validator pk2 (calculatePower b))) ∧
        (calculatePower b = 0 →
          (EndBlock env app).1.db.Get (ValidatorSetChangePrefix ++ pk2) = none)) := by
  have huniq : ∀ e ∈ app.db.entries, e.1 = ValidatorAccountPrefix ++ pk →
      env.BalanceOf e.2 = none := by
    intro e he hk
    have hg := (DB.Get_eq_some_iff app.db e.1 e.2).2 he
    rw [hk, h1] at hg
    cases hg
    exact h2
  have hskip := foldl_endBlockStep_skipped env pk app.db.entries huniq app
  refine ⟨hskip.1, hskip.2.trans h1, ?_, ?_⟩
  · refine ⟨app.db.entries.filterMap (expectedUpdate env app), EndBlock_ValUpdates env app, ?_⟩
    intro v hv hpk
    obtain ⟨e, he, hev⟩ := List.mem_filterMap.1 hv
    obtain ⟨hk, b, hb, _, _⟩ := expectedUpdate_eq_some env app e v hev
    rw [hpk] at hk
    rw [huniq e he hk] at hb
    exact Option.noConfusion hb
  · intro pk2 a2 b hl hb
    refine ⟨fun hne => EndBlock_link env hc app pk2 a2 b hl hb hne, fun hz => ?_⟩
    exact foldl_endBlockStep_link_zero env pk2 a2 b hb hz app.db.entries app.db.sorted
      ((DB.Get_eq_some_iff _ _ _).1 hl) app

/-- C16: the updates returned by `EndBlock` are `ValUpdates` as it stood at the call,
followed, in ascending key order, by the validator with power `calculatePower balance`
for each account link whose balance lookup succeeded and whose update was accepted, and
nothing else; the state keeps the same list.  The entry of a link is appended also when
the validator stored for its key already has that power. -/
theorem endBlock_returns_expected_updates (env : Env) (app : App) :
    (EndBlock env app).2.ValidatorUpdates = expectedUpdates env app ∧
      (EndBlock env app).1.ValUpdates = expectedUpdates env app ∧
      (∀ (pk accountS value : Bytes) (b : Int),
        app.db.Get (ValidatorAccountPrefix ++ pk) = some accountS →
        env.BalanceOf accountS = some b → calculatePower b ≠ 0 →
        env.WriteMessage (Ed25519Validator pk (calculatePower b)) = some value →
        app.db.Get (ValidatorSetChangePrefix ++ pk) = some value →
        Ed25519Validator pk (calculatePower b) ∈
          app.db.entries.filterMap (expectedUpdate env app)) := by
  refine ⟨EndBlock_ValUpdates env app, EndBlock_ValUpdates env app, ?_⟩
  intro pk accountS value b hl hb hne hw _
  refine List.mem_filterMap.2 ⟨(ValidatorAccountPrefix ++ pk, accountS),
    (DB.Get_eq_some_iff _ _ _).1 hl, ?_⟩
  unfold expectedUpdate
  simp only [isValidatorAccountTx_valacc, if_true, hb, drop_valacc]
  rw [updateValidator_nonzero env app _ value hne hw]
  simp

theorem CodecOk_withOracle (env : Env) (hc : env.CodecOk) (oracle : Bytes → Option Int) :
    (env.withOracle oracle).CodecOk := hc

theorem endBlock_skips_failed_lookup_witness :
    linkedApp.db.Get (ValidatorAccountPrefix ++ [1]) = some [97] ∧
      (exampleEnv.withOracle (fun a => if a = [98] then some 250 else none)).BalanceOf [97]
        = none ∧
      (EndBlock (exampleEnv.withOracle (fun a => if a = [98] then some 250 else none))
          linkedApp).1.db.Get (ValidatorSetChangePrefix ++ [1]) =
        linkedApp.db.Get (ValidatorSetChangePrefix ++ [1]) :=
  ⟨by decide, rfl,
    (endBlock_skips_failed_lookup
      (exampleEnv.withOracle (fun a => if a = [98] then some 250 else none))
      (CodecOk_withOracle exampleEnv exampleEnv_CodecOk _) linkedApp [1] [97] (by decide)
      rfl).1⟩

/-! ## Parsed powers are `int64` -/

theorem ParseUint_lt (s : Bytes) (n : Nat) (h : ParseUint s = some n) : n < 2 ^ 64 := by
  unfold ParseUint at h
  split_ifs at h
  cases hd : parseDigits s 0 with
  | none => rw [hd] at h; exact Option.noConfusion h
  | some m =>
    rw [hd] at h
    simp only [] at h
    split_ifs at h with hm
    cases h
    exact hm

theorem ParseInt_isInt64 (s : Bytes) (p : Int) (h : ParseInt s = some p) : isInt64 p := by
  unfold ParseInt at h
  cases s with
  | nil => exact Option.noConfusion h
  | cons c cs =>
    simp only [] at h
    cases hu : ParseUint (if c = 43 ∨ c = 45 then cs else c :: cs) with
    | none => rw [hu] at h; exact Option.noConfusion h
    | some un =>
      rw [hu] at h
      simp only [] at h
      unfold isInt64
      split_ifs at h with h1 h2 h3
      · cases h
        have : ¬ (2 ^ 63 < un) := fun hh => h2 ⟨h3, hh⟩
        omega
      · cases h
        have : ¬ (2 ^ 63 ≤ un) := fun hh => h1 ⟨by simpa using h3, hh⟩
        omega

/-! ## The invariant on validator entries -/

theorem NonzeroEntries_Set_val (env : Env) (db : DB) (value : Bytes) (v : Validator)
    (hr : env.ReadMessage value = some v) (hp : v.Power ≠ 0)
    (hs : NonzeroEntries env db.entries) :
    NonzeroEntries env (db.Set (ValidatorSetChangePrefix ++ v.PubKey.Data) value).entries := by
  intro e he hpre
  have hg := (DB.Get_eq_some_iff _ e.1 e.2).2 he
  by_cases hk : e.1 = ValidatorSetChangePrefix ++ v.PubKey.Data
  · rw [hk, DB.Get_Set_self] at hg
    cases hg
    exact ⟨v, hr, hk, hp⟩
  · rw [DB.Get_Set_ne _ _ _ _ hk] at hg
    exact hs e ((DB.Get_eq_some_iff _ e.1 e.2).1 hg) hpre

theorem NonzeroEntries_Set_valacc (env : Env) (db : DB) (pk value : Bytes)
    (hs : NonzeroEntries env db.entries) :
    NonzeroEntries env (db.Set (ValidatorAccountPrefix ++ pk) value).entries := by
  intro e he hpre
  have hg := (DB.Get_eq_some_iff _ e.1 e.2).2 he
  have hk : e.1 ≠ ValidatorAccountPrefix ++ pk := by
    intro e1
    rw [e1, isValidatorTx_valacc] at hpre
    exact Bool.noConfusion hpre
  rw [DB.Get_Set_ne _ _ _ _ hk] at hg
  exact hs e ((DB.Get_eq_some_iff _ e.1 e.2).1 hg) hpre

theorem NonzeroEntries_Delete (env : Env) (db : DB) (k : Bytes)
    (hs : NonzeroEntries env db.entries) : NonzeroEntries env (db.Delete k).entries := by
  intro e he hpre
  have he1 : e ∈ db.entries := (List.mem_filter.1 he).1
  exact hs e he1 hpre

theorem updateValidator_NonzeroEntries (env : Env) (hc : env.CodecOk) (app : App)
    (v : Validator) (hv : isInt64 v.Power) (hs : NonzeroEntries env app.db.entries) :
    NonzeroEntries env (updateValidator env app v).1.db.entries := by
  rcases updateValidator_cases env app v with ⟨h1, _⟩ | ⟨_, _, h⟩ | ⟨hp, value, hw, h⟩
  · rw [h1]; exact hs
  · rw [h]
    exact NonzeroEntries_Delete env _ _ (NonzeroEntries_Delete env _ _ hs)
  · rw [h]
    obtain ⟨b, hb, hr⟩ := hc v hv
    rw [hw] at hb
    cases hb
    exact NonzeroEntries_Set_val env app.db value v hr hp hs

theorem execValidatorTx_eq (env : Env) (app : App) (tx : Bytes) :
    execValidatorTx env app tx = (app, ⟨CodeTypeEncodingError⟩) ∨
      ∃ pubkey power, isInt64 power ∧
        execValidatorTx env app tx = updateValidator env app (Ed25519Validator pubkey power) := by
  unfold execValidatorTx
  simp only []
  split
  · next pubkeyS powerS _ =>
    cases hd : DecodeString pubkeyS with
    | none => left; rfl
    | some pubkey =>
      cases hpw : ParseInt powerS with
      | none => left; rfl
      | some power => right; exact ⟨pubkey, power, ParseInt_isInt64 _ _ hpw, rfl⟩
  · left; rfl

theorem execValidatorAccountTx_eq (env : Env) (app : App) (tx : Bytes) :
    execValidatorAccountTx env app tx = (app, ⟨CodeTypeEncodingError⟩) ∨
      ∃ pubkey accountS balance, env.BalanceOf accountS = some balance ∧
        execValidatorAccountTx env app tx =
          updateValidator env (updateAccount app pubkey accountS)
            (Ed25519Validator pubkey (calculatePower balance)) := by
  unfold execValidatorAccountTx
  simp only []
  split
  · next pubkeyS accountS _ =>
    cases hd : DecodeString pubkeyS with
    | none => left; rfl
    | some pubkey =>
      cases hb : env.BalanceOf accountS with
      | none => left; rfl
      | some balance => right; exact ⟨pubkey, accountS, balance, hb, rfl⟩
  · left; rfl

theorem DeliverTx_NonzeroEntries (env : Env) (hc : env.CodecOk) (app : App) (tx : Bytes)
    (ht : isValidatorTx tx = true ∨ isValidatorAccountTx tx = true)
    (hs : NonzeroEntries env app.db.entries) :
    NonzeroEntries env (DeliverTx env app tx).1.db.entries := by
  unfold DeliverTx
  by_cases h1 : isValidatorTx tx = true
  · rw [if_pos h1]
    rcases execValidatorTx_eq env app tx with h | ⟨pubkey, power, hp, h⟩
    · rw [h]; exact hs
    · rw [h]; exact updateValidator_NonzeroEntries env hc app _ hp hs
  · have h2 : isValidatorAccountTx tx = true := by
      rcases ht with h | h
      · exact absurd h h1
      · exact h
    rw [if_neg h1, if_pos h2]
    rcases execValidatorAccountTx_eq env app tx with h | ⟨pubkey, accountS, balance, _, h⟩
    · rw [h]; exact hs
    · rw [h]
      exact updateValidator_NonzeroEntries env hc _ _ (calculatePower_isInt64 _)
        (NonzeroEntries_Set_valacc env app.db pubkey accountS hs)

theorem endBlockStep_eq (env : Env) (app : App) (e : Bytes × Bytes) :
    endBlockStep env app e = app ∨
      ∃ pk b, e.1 = ValidatorAccountPrefix ++ pk ∧ env.BalanceOf e.2 = some b ∧
        endBlockStep env app e =
          (updateValidator env app (Ed25519Validator pk (calculatePower b))).1 := by
  unfold endBlockStep
  by_cases hp : isValidatorAccountTx e.1 = true
  · simp only [hp, if_true]
    cases hb : env.BalanceOf e.2 with
    | none => left; rfl
    | some balance =>
      right
      exact ⟨_, balance, eq_valacc_of_isValidatorAccountTx e.1 hp, rfl, rfl⟩
  · left
    simp only [hp]
    rfl

theorem endBlockStep_NonzeroEntries (env : Env) (hc : env.CodecOk) (app : App)
    (e : Bytes × Bytes) (hs : NonzeroEntries env app.db.entries) :
    NonzeroEntries env (endBlockStep env app e).db.entries := by
  rcases endBlockStep_eq env app e with h | ⟨pk, b, _, _, h⟩
  · rw [h]; exact hs
  · rw [h]
    exact updateValidator_NonzeroEntries env hc app (Ed25519Validator pk (calculatePower b))
      (calculatePower_isInt64 b) hs

theorem foldl_endBlockStep_NonzeroEntries (env : Env) (hc : env.CodecOk)
    (l : List (Bytes × Bytes)) (app : App) (hs : NonzeroEntries env app.db.entries) :
    NonzeroEntries env (l.foldl (endBlockStep env) app).db.entries := by
  induction l generalizing app with
  | nil => exact hs
  | cons e es ih =>
    rw [List.foldl_cons]
    exact ih _ (endBlockStep_NonzeroEntries env hc app e hs)

theorem InitChain_NonzeroEntries (env : Env) (hc : env.CodecOk) (validators : List Validator)
    (app : App) (hv : ∀ v ∈ validators, isInt64 v.Power)
    (hs : NonzeroEntries env app.db.entries) :
    NonzeroEntries env (InitChain env app validators).db.entries := by
  unfold InitChain
  induction validators generalizing app with
  | nil => exact hs
  | cons v vs ih =>
    rw [List.foldl_cons]
    exact ih _ (fun w hw => hv w (List.mem_cons_of_mem _ hw))
      (updateValidator_NonzeroEntries env hc app v (hv v (List.mem_cons_self _ _)) hs)

theorem applyCall_NonzeroEntries (env : Env) (hc : env.CodecOk) (app : App) (c : Call)
    (ht : c.Typed) (hs : NonzeroEntries env app.db.entries) :
    NonzeroEntries env (applyCall env app c).db.entries := by
  cases c with
  | initChain validators => exact InitChain_NonzeroEntries env hc validators app ht hs
  | beginBlock => exact hs
  | deliverTx oracle tx =>
    exact DeliverTx_NonzeroEntries (env.withOracle oracle) (CodecOk_withOracle env hc oracle)
      app tx ht hs
  | endBlock oracle =>
    exact foldl_endBlockStep_NonzeroEntries (env.withOracle oracle)
      (CodecOk_withOracle env hc oracle) app.db.entries app hs

theorem runCalls_NonzeroEntries (env : Env) (hc : env.CodecOk) (calls : List Call) (app : App)
    (ht : ∀ c ∈ calls, c.Typed) (hs : NonzeroEntries env app.db.entries) :
    NonzeroEntries env (runCalls env app calls).db.entries := by
  unfold runCalls
  induction calls generalizing app with
  | nil => exact hs
  | cons c cs ih =>
    rw [List.foldl_cons]
    exact ih _ (fun x hx => ht x (List.mem_cons_of_mem _ hx))
      (applyCall_NonzeroEntries env hc app c (ht c (List.mem_cons_self _ _)) hs)

theorem collectValidators_of_NonzeroEntries (env : Env) (l : List (Bytes × Bytes))
    (hs : l.Pairwise (fun a b => a.1 < b.1)) (hn : NonzeroEntries env l) :
    ∃ vs, collectValidators env l = some vs ∧
      (∀ v ∈ vs, v.Power ≠ 0 ∧ ∃ e ∈ l, e.1 = ValidatorSetChangePrefix ++ v.PubKey.Data) ∧
      vs.Pairwise (fun a b => a.PubKey.Data ≠ b.PubKey.Data) := by
  induction l with
  | nil => exact ⟨[], rfl, fun v hv => absurd hv (List.not_mem_nil _), List.Pairwise.nil⟩
  | cons e es ih =>
    have hes := List.pairwise_cons.1 hs
    obtain ⟨vs, h1, h2, h3⟩ := ih hes.2 (fun x hx => hn x (List.mem_cons_of_mem _ hx))
    by_cases hp : isValidatorTx e.1 = true
    · obtain ⟨w, hr, hk, hw⟩ := hn e (List.mem_cons_self _ _) hp
      refine ⟨w :: vs, ?_, ?_, ?_⟩
      · simp only [collectValidators, hp, if_true, hr, h1]
      · intro v hv
        rcases List.mem_cons.1 hv with h | h
        · rw [h]; exact ⟨hw, e, List.mem_cons_self _ _, hk⟩
        · obtain ⟨hv0, x, hx, hxk⟩ := h2 v h
          exact ⟨hv0, x, List.mem_cons_of_mem _ hx, hxk⟩
      · refine List.pairwise_cons.2 ⟨?_, h3⟩
        intro v hv hd
        obtain ⟨_, x, hx, hxk⟩ := h2 v hv
        have := hes.1 x hx
        rw [hk, hxk, hd] at this
        exact lt_irrefl _ this
    · refine ⟨vs, ?_, ?_, h3⟩
      · simp only [collectValidators, hp, h1]
        rfl
      · intro v hv
        obtain ⟨hv0, x, hx, hxk⟩ := h2 v hv
        exact ⟨hv0, x, List.mem_cons_of_mem _ hx, hxk⟩

/-- C12: in every state reached from an empty store by `InitChain` (of validators with
`int64` powers), `BeginBlock`, `DeliverTx` of `"val:"` and `"valacc:"` transactions and
`EndBlock`, whatever the oracle answers, every entry under a key `"val:" + pk` decodes to
a validator with public key `pk` and a power that is not 0; hence `Validators` returns,
lists no validator with power 0, and lists no two validators with the same public key. -/
theorem reachable_validators_nonzero_unique (env : Env) (hc : env.CodecOk)
    (updates : List Validator) (calls : List Call) (ht : ∀ c ∈ calls, c.Typed) :
    NonzeroEntries env (runCalls env ⟨DB.empty, updates⟩ calls).db.entries ∧
      ∃ vs, Validators env (runCalls env ⟨DB.empty, updates⟩ calls) = some vs ∧
        (∀ v ∈ vs, v.Power ≠ 0) ∧
        vs.Pairwise (fun a b => a.PubKey.Data ≠ b.PubKey.Data) := by
  have hn := runCalls_NonzeroEntries env hc calls ⟨DB.empty, updates⟩ ht
    (fun e he => absurd he (List.not_mem_nil _))
  refine ⟨hn, ?_⟩
  obtain ⟨vs, h1, h2, h3⟩ := collectValidators_of_NonzeroEntries env _
    (runCalls env ⟨DB.empty, updates⟩ calls).db.sorted hn
  exact ⟨vs, h1, fun v hv => (h2 v hv).1, h3⟩

theorem exampleCalls_Typed : ∀ c ∈ exampleCalls, c.Typed := by
  intro c hc
  simp only [exampleCalls, List.mem_cons, List.mem_singleton, List.not_mem_nil, or_false] at hc
  rcases hc with h | h | h | h | h
  · rw [h]
    intro v hv
    rw [List.mem_singleton] at hv
    rw [hv]
    decide
  · rw [h]; exact True.intro
  · rw [h]; exact Or.inl (by decide)
  · rw [h]; exact Or.inr (by decide)
  · rw [h]; exact True.intro

theorem reachable_validators_nonzero_unique_witness :
    (∀ c ∈ exampleCalls, c.Typed) ∧
      ∃ vs, Validators exampleEnv (runCalls exampleEnv ⟨DB.empty, []⟩ exampleCalls) = some vs ∧
        (∀ v ∈ vs, v.Power ≠ 0) ∧
        vs.Pairwise (fun a b => a.PubKey.Data ≠ b.PubKey.Data) :=
  ⟨exampleCalls_Typed,
    (reachable_validators_nonzero_unique exampleEnv exampleEnv_CodecOk [] exampleCalls
      exampleCalls_Typed).2⟩

theorem ValidEntries_of_NonzeroEntries (env : Env) (l : List (Bytes × Bytes))
    (h : NonzeroEntries env l) : ValidEntries env l := by
  intro e he hp
  obtain ⟨v, hr, hk, _⟩ := h e he hp
  exact ⟨v, hr, hk⟩

/-- C1: in every store state reached from an empty store by `InitChain` (of validators
with `int64` powers), `BeginBlock`, `DeliverTx` of `"val:"` and `"valacc:"` transactions
and `EndBlock`, for every public key `pk` and every `int64` power `p > 0`, `DeliverTx` of
`val:<hex pk>/<decimal p>` returns `OK`, and afterwards `Validators` contains exactly one
entry whose public key is `pk`, that entry has power `p`, and `ValUpdates` ends with the
validator `pk`, `p`. -/
theorem deliverTx_val_sets_validator (env : Env) (hc : env.CodecOk)
    (updates : List Validator) (calls : List Call) (ht : ∀ c ∈ calls, c.Typed)
    (pubkey : PubKey) (p : Int) (hp : 0 < p) (hp64 : isInt64 p) :
    (DeliverTx env (runCalls env ⟨DB.empty, updates⟩ calls) (MakeValSetChangeTx pubkey p)).2
        = ⟨CodeTypeOK⟩ ∧
      (∃ vs,
        Validators env
            (DeliverTx env (runCalls env ⟨DB.empty, updates⟩ calls)
              (MakeValSetChangeTx pubkey p)).1 = some vs ∧
          vs.filter (fun v => decide (v.PubKey.Data = pubkey.Data)) =
            [Ed25519Validator pubkey.Data p]) ∧
      (DeliverTx env (runCalls env ⟨DB.empty, updates⟩ calls)
          (MakeValSetChangeTx pubkey p)).1.ValUpdates =
        (runCalls env ⟨DB.empty, updates⟩ calls).ValUpdates ++
          [Ed25519Validator pubkey.Data p] := by
  have hn := runCalls_NonzeroEntries env hc calls ⟨DB.empty, updates⟩ ht
    (fun e he => absurd he (List.not_mem_nil _))
  exact DeliverTx_val_of_ValidStore env hc _ (ValidEntries_of_NonzeroEntries env _ hn)
    pubkey p hp hp64

theorem deliverTx_val_sets_validator_witness :
    (∀ c ∈ exampleCalls, c.Typed) ∧ (0 : Int) < 9 ∧ isInt64 9 ∧
      ∃ vs,
        Validators exampleEnv
            (DeliverTx exampleEnv (runCalls exampleEnv ⟨DB.empty, []⟩ exampleCalls)
              (MakeValSetChangeTx exampleKey 9)).1 = some vs ∧
          vs.filter (fun v => decide (v.PubKey.Data = exampleKey.Data)) =
            [Ed25519Validator exampleKey.Data 9] :=
  ⟨exampleCalls_Typed, by decide, by decide,
    (deliverTx_val_sets_validator exampleEnv exampleEnv_CodecOk [] exampleCalls
      exampleCalls_Typed exampleKey 9 (by decide) (by decide)).2.1⟩

/-! ## Initialisation and the removal scenario -/

theorem InitChain_nil (env : Env) (app : App) : InitChain env app [] = app := rfl

theorem InitChain_cons (env : Env) (app : App) (v : Validator) (vs : List Validator) :
    InitChain env app (v :: vs) = InitChain env (updateValidator env app v).1 vs := rfl

theorem InitChain_append (env : Env) (app : App) (xs ys : List Validator) :
    InitChain env app (xs ++ ys) = InitChain env (InitChain env app xs) ys := by
  unfold InitChain
  rw [List.foldl_append]

theorem InitChain_Get_val_other (env : Env) (pk : Bytes) (vs : List Validator) (app : App)
    (h : ∀ w ∈ vs, w.PubKey.Data ≠ pk) :
    (InitChain env app vs).db.Get (ValidatorSetChangePrefix ++ pk) =
      app.db.Get (ValidatorSetChangePrefix ++ pk) := by
  induction vs generalizing app with
  | nil => rfl
  | cons v vs ih =>
    rw [InitChain_cons, ih _ (fun w hw => h w (List.mem_cons_of_mem _ hw)),
      updateValidator_Get_val_other env app v pk (h v (List.mem_cons_self _ _))]

/-- C14: `InitChain` applies `updateValidator` to every entry of the list in order and
drops each result, also after an entry that fails; so every entry with an `int64` power
other than 0 whose public key does not occur again later in the list is persisted: its
validator entry reads back as that entry. -/
theorem initChain_applies_every_entry (env : Env) (hc : env.CodecOk) :
    (∀ app : App, InitChain env app [] = app) ∧
      (∀ (app : App) (v : Validator) (vs : List Validator),
        InitChain env app (v :: vs) = InitChain env (updateValidator env app v).1 vs) ∧
      (∀ (app : App) (before after : List Validator) (v : Validator),
        isInt64 v.Power → v.Power ≠ 0 → (∀ w ∈ after, w.PubKey.Data ≠ v.PubKey.Data) →
        ∃ value,
          (InitChain env app (before ++ v :: after)).db.Get
              (ValidatorSetChangePrefix ++ v.PubKey.Data) = some value ∧
            env.ReadMessage value = some v) := by
  refine ⟨fun app => rfl, fun app v vs => rfl, ?_⟩
  intro app before after v hv hp hafter
  obtain ⟨value, hw, hr⟩ := hc v hv
  refine ⟨value, ?_, hr⟩
  rw [InitChain_append, InitChain_cons, InitChain_Get_val_other env _ after _ hafter,
    updateValidator_nonzero env _ v value hp hw]
  exact DB.Get_Set_self _ _ _

theorem initChain_applies_every_entry_witness :
    (updateValidator exampleEnv ⟨DB.empty, []⟩ ⟨⟨TypeEd25519, [9]⟩, 0⟩).2
        = ⟨CodeTypeUnauthorized⟩ ∧
      ∃ value,
        (InitChain exampleEnv ⟨DB.empty, []⟩
            ([⟨⟨TypeEd25519, [9]⟩, 0⟩] ++ ⟨exampleKey, 5⟩ :: [])).db.Get
            (ValidatorSetChangePrefix ++ exampleKey.Data) = some value ∧
          exampleEnv.ReadMessage value = some ⟨exampleKey, 5⟩ :=
  ⟨by decide,
    (initChain_applies_every_entry exampleEnv exampleEnv_CodecOk).2.2 ⟨DB.empty, []⟩
      [⟨⟨TypeEd25519, [9]⟩, 0⟩] [] ⟨exampleKey, 5⟩ (by decide) (by decide)
      (fun w hw => absurd hw (List.not_mem_nil _))⟩

/-- C13: from an empty store, after `InitChain` with the single validator `V1` of power
`p ≠ 0`, `BeginBlock`, `DeliverTx` of `val:<hex V1>/0` and `EndBlock`, the `DeliverTx`
response is `OK`, the updates returned by `EndBlock` are exactly the single entry with
the public key bytes of `V1` and power 0, and `Validators` returns the empty list, so it
does not contain `V1`. -/
theorem remove_initial_validator_scenario (env : Env) (hc : env.CodecOk) (kind pk : Bytes)
    (p : Int) (hp : isInt64 p) (hp0 : p ≠ 0) (oracle1 oracle2 : Bytes → Option Int) :
    (DeliverTx (env.withOracle oracle1)
        (BeginBlock (InitChain env ⟨DB.empty, []⟩ [⟨⟨kind, pk⟩, p⟩]))
        (MakeValSetChangeTx ⟨kind, pk⟩ 0)).2 = ⟨CodeTypeOK⟩ ∧
      (EndBlock (env.withOracle oracle2)
        (DeliverTx (env.withOracle oracle1)
          (BeginBlock (InitChain env ⟨DB.empty, []⟩ [⟨⟨kind, pk⟩, p⟩]))
          (MakeValSetChangeTx ⟨kind, pk⟩ 0)).1).2.ValidatorUpdates
        = [Ed25519Validator pk 0] ∧
      Validators env
        (EndBlock (env.withOracle oracle2)
          (DeliverTx (env.withOracle oracle1)
            (BeginBlock (InitChain env ⟨DB.empty, []⟩ [⟨⟨kind, pk⟩, p⟩]))
            (MakeValSetChangeTx ⟨kind, pk⟩ 0)).1).1 = some [] := by
  obtain ⟨value, hw, _⟩ := hc ⟨⟨kind, pk⟩, p⟩ hp
  have h1 : InitChain env ⟨DB.empty, []⟩ [⟨⟨kind, pk⟩, p⟩] =
      ⟨DB.empty.Set (ValidatorSetChangePrefix ++ pk) value, [⟨⟨kind, pk⟩, p⟩]⟩ := by
    rw [InitChain_cons, InitChain_nil, updateValidator_nonzero env _ _ value hp0 hw]
    rfl
  have hhas : (DB.empty.Set (ValidatorSetChangePrefix ++ pk) value).Has
      (ValidatorSetChangePrefix ++ pk) = true := by
    show ((DB.empty.Set _ value).Get _).isSome = true
    rw [DB.Get_Set_self]
    rfl
  have h3 : DeliverTx (env.withOracle oracle1)
      (BeginBlock (InitChain env ⟨DB.empty, []⟩ [⟨⟨kind, pk⟩, p⟩]))
      (MakeValSetChangeTx ⟨kind, pk⟩ 0) = (⟨DB.empty, [Ed25519Validator pk 0]⟩, ⟨CodeTypeOK⟩) := by
    rw [h1, DeliverTx_MakeValSetChangeTx _ _ _ 0 (by decide)]
    rw [updateValidator_zero_present _ _ (Ed25519Validator pk 0) rfl hhas]
    refine Prod.ext ?_ rfl
    show (⟨_, _⟩ : App) = ⟨DB.empty, [Ed25519Validator pk 0]⟩
    congr 1
    apply DB.ext_entries
    show eraseEntry _ (eraseEntry (ValidatorSetChangePrefix ++ pk)
      (insertEntry (ValidatorSetChangePrefix ++ pk) value [])) = []
    simp [insertEntry, eraseEntry]
  rw [h3]
  exact ⟨rfl, rfl, rfl⟩

theorem remove_initial_validator_scenario_witness :
    isInt64 5 ∧ (5 : Int) ≠ 0 ∧
      (EndBlock (exampleEnv.withOracle exampleBalanceOf)
        (DeliverTx (exampleEnv.withOracle exampleBalanceOf)
          (BeginBlock (InitChain exampleEnv ⟨DB.empty, []⟩ [⟨⟨TypeEd25519, [1, 2]⟩, 5⟩]))
          (MakeValSetChangeTx ⟨TypeEd25519, [1, 2]⟩ 0)).1).2.ValidatorUpdates
        = [Ed25519Validator [1, 2] 0] :=
  ⟨by decide, by decide,
    (remove_initial_validator_scenario exampleEnv exampleEnv_CodecOk TypeEd25519 [1, 2] 5
      (by decide) (by decide) exampleBalanceOf exampleBalanceOf).2.1⟩

/-! ## Links and validators -/

theorem calculatePower_ne_zero_of_nonneg (b : Int) (h0 : 0 ≤ b) (hb : isInt64 b) :
    calculatePower b ≠ 0 := by
  rw [calculatePower_eq hb, tdiv_hundred_nonneg h0]
  omega

theorem Has_Set_self (db : DB) (k v : Bytes) : (db.Set k v).Has k = true := by
  show ((db.Set k v).Get k).isSome = true
  rw [DB.Get_Set_self]
  rfl

theorem Has_Set_ne (db : DB) (k v k1 : Bytes) (h : k1 ≠ k) :
    (db.Set k v).Has k1 = db.Has k1 := by
  show ((db.Set k v).Get k1).isSome = (db.Get k1).isSome
  rw [DB.Get_Set_ne _ _ _ _ h]

theorem Has_Delete_self (db : DB) (k : Bytes) : (db.Delete k).Has k = false := by
  show ((db.Delete k).Get k).isSome = false
  rw [DB.Get_Delete_self]
  rfl

theorem Has_Delete_ne (db : DB) (k k1 : Bytes) (h : k1 ≠ k) :
    (db.Delete k).Has k1 = db.Has k1 := by
  show ((db.Delete k).Get k1).isSome = (db.Get k1).isSome
  rw [DB.Get_Delete_ne _ _ _ h]

theorem LinksHaveValidators_Set_val (db : DB) (pk value : Bytes)
    (h : LinksHaveValidators db) :
    LinksHaveValidators (db.Set (ValidatorSetChangePrefix ++ pk) value) := by
  intro pk1 hl
  rw [Has_Set_ne _ _ _ _ (val_ne_valacc _ _).symm] at hl
  by_cases e : pk1 = pk
  · rw [e]; exact Has_Set_self _ _ _
  · rw [Has_Set_ne _ _ _ _ (val_ne_val e)]
    exact h pk1 hl

theorem updateValidator_LinksHaveValidators (env : Env) (app : App) (v : Validator)
    (h : LinksHaveValidators app.db) :
    LinksHaveValidators (updateValidator env app v).1.db := by
  rcases updateValidator_cases env app v with ⟨h1, _⟩ | ⟨_, _, h2⟩ | ⟨_, value, _, h2⟩
  · rw [h1]; exact h
  · rw [h2]
    intro pk1 hl
    have hl1 : ((app.db.Delete (ValidatorSetChangePrefix ++ v.PubKey.Data)).Delete
        (ValidatorAccountPrefix ++ v.PubKey.Data)).Has (ValidatorAccountPrefix ++ pk1) = true := hl
    have hne : pk1 ≠ v.PubKey.Data := by
      intro e
      rw [e, Has_Delete_self] at hl1
      exact Bool.noConfusion hl1
    rw [Has_Delete_ne _ _ _ (valacc_ne_valacc hne),
      Has_Delete_ne _ _ _ (val_ne_valacc _ _).symm] at hl1
    show ((app.db.Delete _).Delete _).Has _ = true
    rw [Has_Delete_ne _ _ _ (val_ne_valacc _ _), Has_Delete_ne _ _ _ (val_ne_val hne)]
    exact h pk1 hl1
  · rw [h2]
    exact LinksHaveValidators_Set_val app.db _ value h

theorem DeliverTx_LinksHaveValidators (env : Env) (hc : env.CodecOk) (app : App) (tx : Bytes)
    (ht : isValidatorTx tx = true ∨ isValidatorAccountTx tx = true)
    (ho : NonNegOracle env.BalanceOf) (h : LinksHaveValidators app.db) :
    LinksHaveValidators (DeliverTx env app tx).1.db := by
  unfold DeliverTx
  by_cases h1 : isValidatorTx tx = true
  · rw [if_pos h1]
    rcases execValidatorTx_eq env app tx with e | ⟨pubkey, power, _, e⟩
    · rw [e]; exact h
    · rw [e]; exact updateValidator_LinksHaveValidators env app _ h
  · have h2 : isValidatorAccountTx tx = true := by
      rcases ht with h3 | h3
      · exact absurd h3 h1
      · exact h3
    rw [if_neg h1, if_pos h2]
    rcases execValidatorAccountTx_eq env app tx with e | ⟨pubkey, accountS, balance, hb, e⟩
    · rw [e]; exact h
    · rw [e]
      have hbal := ho accountS balance hb
      have hp := calculatePower_ne_zero_of_nonneg balance hbal.1 hbal.2
      obtain ⟨value, hw, _⟩ :=
        hc (Ed25519Validator pubkey (calculatePower balance)) (calculatePower_isInt64 _)
      rw [updateValidator_nonzero env _ _ value hp hw]
      intro pk1 hl
      have hl1 : ((app.db.Set (ValidatorAccountPrefix ++ pubkey) accountS).Set
          (ValidatorSetChangePrefix ++ pubkey) value).Has (ValidatorAccountPrefix ++ pk1)
          = true := hl
      show ((app.db.Set (ValidatorAccountPrefix ++ pubkey) accountS).Set
          (ValidatorSetChangePrefix ++ pubkey) value).Has (ValidatorSetChangePrefix ++ pk1)
          = true
      by_cases e1 : pk1 = pubkey
      · rw [e1]; exact Has_Set_self _ _ _
      · rw [Has_Set_ne _ _ _ _ (val_ne_valacc _ _).symm,
          Has_Set_ne _ _ _ _ (valacc_ne_valacc e1)] at hl1
        rw [Has_Set_ne _ _ _ _ (val_ne_val e1), Has_Set_ne _ _ _ _ (val_ne_valacc _ _)]
        exact h pk1 hl1

theorem foldl_endBlockStep_LinksHaveValidators (env : Env) (l : List (Bytes × Bytes))
    (app : App) (h : LinksHaveValidators app.db) :
    LinksHaveValidators (l.foldl (endBlockStep env) app).db := by
  induction l generalizing app with
  | nil => exact h
  | cons e es ih =>
    rw [List.foldl_cons]
    apply ih
    rcases endBlockStep_eq env app e with h1 | ⟨pk, b, _, _, h1⟩
    · rw [h1]; exact h
    · rw [h1]; exact updateValidator_LinksHaveValidators env app _ h

theorem InitChain_LinksHaveValidators (env : Env) (validators : List Validator) (app : App)
    (h : LinksHaveValidators app.db) :
    LinksHaveValidators (InitChain env app validators).db := by
  induction validators generalizing app with
  | nil => exact h
  | cons v vs ih =>
    rw [InitChain_cons]
    exact ih _ (updateValidator_LinksHaveValidators env app v h)

theorem applyCall_LinksHaveValidators (env : Env) (hc : env.CodecOk) (app : App) (c : Call)
    (hn : c.NonNeg) (h : LinksHaveValidators app.db) :
    LinksHaveValidators (applyCall env app c).db := by
  cases c with
  | initChain validators => exact InitChain_LinksHaveValidators env validators app h
  | beginBlock => exact h
  | deliverTx oracle tx =>
    exact DeliverTx_LinksHaveValidators (env.withOracle oracle)
      (CodecOk_withOracle env hc oracle) app tx hn.1 hn.2 h
  | endBlock oracle =>
    exact foldl_endBlockStep_LinksHaveValidators (env.withOracle oracle) app.db.entries app h

/-- C19: starting from a store with no account links, after every sequence of `InitChain`,
`BeginBlock`, `DeliverTx` of `"val:"` and `"valacc:"` transactions and `EndBlock` during
which every balance the oracle reports is a non-negative `int64`, every public key that
has a persisted account link also has a persisted validator entry. -/
theorem links_have_validators_under_nonneg_oracle (env : Env) (hc : env.CodecOk) (app : App)
    (h0 : NoLinks app.db) (calls : List Call) (hn : ∀ c ∈ calls, c.NonNeg) :
    LinksHaveValidators (runCalls env app calls).db := by
  have hstart : LinksHaveValidators app.db := by
    intro pk hl
    rw [h0 pk] at hl
    exact Bool.noConfusion hl
  clear h0
  unfold runCalls
  induction calls generalizing app with
  | nil => exact hstart
  | cons c cs ih =>
    rw [List.foldl_cons]
    exact ih _ (fun x hx => hn x (List.mem_cons_of_mem _ hx))
      (applyCall_LinksHaveValidators env hc app c (hn c (List.mem_cons_self _ _)) hstart)

theorem exampleBalanceOf_NonNeg : NonNegOracle exampleBalanceOf := by
  intro a b h
  unfold exampleBalanceOf at h
  split_ifs at h
  · cases h; decide
  · cases h; decide

theorem exampleCalls_NonNeg : ∀ c ∈ exampleCalls, c.NonNeg := by
  intro c hc
  simp only [exampleCalls, List.mem_cons, List.mem_singleton, List.not_mem_nil, or_false] at hc
  rcases hc with h | h | h | h | h
  · rw [h]; exact True.intro
  · rw [h]; exact True.intro
  · rw [h]; exact ⟨Or.inl (by decide), exampleBalanceOf_NonNeg⟩
  · rw [h]; exact ⟨Or.inr (by decide), exampleBalanceOf_NonNeg⟩
  · rw [h]; exact exampleBalanceOf_NonNeg

theorem links_have_validators_under_nonneg_oracle_witness :
    NoLinks (⟨DB.empty, []⟩ : App).db ∧ (∀ c ∈ exampleCalls, c.NonNeg) ∧
      LinksHaveValidators (runCalls exampleEnv ⟨DB.empty, []⟩ exampleCalls).db :=
  ⟨fun _ => rfl, exampleCalls_NonNeg,
    links_have_validators_under_nonneg_oracle exampleEnv exampleEnv_CodecOk ⟨DB.empty, []⟩
      (fun _ => rfl) exampleCalls exampleCalls_NonNeg⟩

/-! ## A rejected link transaction -/

/-- C18, evaluated where it fails: the contract reports the balance
`(2^64 - 1000) * 10^18` for the account `"0x00"`, which `BalanceOf` turns into the `int64`
`-1000` with a `nil` error, so the derived power is 0; on the empty store `DeliverTx` of
`valacc:0102/0x00` returns the nonzero code `Unauthorized`, yet the account link of
`[1, 2]`, absent before, is now stored.  A node answering `"-1000000000000000000000"`
gives the same balance. -/
theorem deliverTx_valacc_rejected_keeps_link :
    BalanceOf wrappedRpc [48, 120, 48, 48] = (-1000, none) ∧
      BalanceOf negativeRpc [48, 120, 48, 48] = (-1000, none) ∧
      calculatePower (-1000) = 0 ∧
      (DeliverTx (exampleEnv.withOracle (oracleOf wrappedRpc)) ⟨DB.empty, []⟩
          (ValidatorAccountPrefix ++ ([48, 49, 48, 50] ++ [slash] ++ [48, 120, 48, 48]))).2
        = ⟨CodeTypeUnauthorized⟩ ∧
      CodeTypeUnauthorized ≠ 0 ∧
      (⟨DB.empty, []⟩ : App).db.Get (ValidatorAccountPrefix ++ [1, 2]) = none ∧
      (DeliverTx (exampleEnv.withOracle (oracleOf wrappedRpc)) ⟨DB.empty, []⟩
          (ValidatorAccountPrefix ++
            ([48, 49, 48, 50] ++ [slash] ++ [48, 120, 48, 48]))).1.db.Get
        (ValidatorAccountPrefix ++ [1, 2]) = some [48, 120, 48, 48] := by
  decide

/-! ## The balance oracle -/

theorem BalanceOf_of_unparsable (rpc : RpcEnv) (account result : Bytes)
    (h1 : rpc.DialErr = none) (h2 : HasPrefix account [48, 120] = true)
    (h3 : rpc.Call CONTRACT_ADDRESS (FUNCTION_SIGNATURE ++ account.drop 2) = Except.ok result)
    (h4 : rpc.SetString result = none) :
    BalanceOf rpc account = (0, none) := by
  unfold BalanceOf genRequestData
  simp only [h1, h2, Bool.true_eq_false, if_false, h3, h4]

/-- C17, evaluated where it fails: the account `"0x00"` is well-formed, the node answers
`"zz"`, which does not parse as an integer; `BalanceOf` returns the balance 0 with a
`nil` error, and its callers take 0 for the balance. -/
theorem balanceOf_unparsable_returns_nil_error :
    unparsableRpc.SetString [122, 122] = none ∧
      BalanceOf unparsableRpc [48, 120, 48, 48] = (0, none) ∧
      oracleOf unparsableRpc [48, 120, 48, 48] = some 0 := by
  have h := BalanceOf_of_unparsable unparsableRpc [48, 120, 48, 48] [122, 122] rfl
    (by decide) rfl (by decide)
  refine ⟨by decide, h, ?_⟩
  unfold oracleOf
  rw [h]

/-! ## Commit and initialisation -/

/-- C15, evaluated where it fails: `InitChain` with an empty validator list leaves the
state exactly as it was and nothing records that it ran, so `Commit` does on an
application on which `InitChain` was never called what it does after that `InitChain`;
whenever it returns after it, it also returns, without a panic, without it. -/
theorem commit_same_without_initChain (kvCommit : App → Option (App × ResponseCommit))
    (env : Env) (app : App) :
    InitChain env app [] = app ∧
      Commit kvCommit app = Commit kvCommit (InitChain env app []) ∧
      ((Commit kvCommit (InitChain env app [])).isSome = true →
        (Commit kvCommit app).isSome = true) := by
  refine ⟨InitChain_nil env app, ?_, ?_⟩
  · rw [InitChain_nil]
  · rw [InitChain_nil]
    exact fun h => h

end Passmint
